import Mathlib

/-!
Verification of the polite crawling engine of `letscrawl`:
`url_utils.py` (URL normalization and SSRF safety), `security.py`
(robots.txt checker and rate limiter), `fetcher.py` (AsyncFetcher) and
`crawler.py` (WebCrawler).  The Python standard-library routines the code
leans on (`urllib.parse.urlsplit`/`urlparse`/`urljoin`, `ipaddress`) are
embedded faithfully for ASCII input, following CPython 3.11 semantics.
Strings are modelled as `List Char`; stateful components are modelled by
explicit state passing; code that can raise returns `Except`.
-/

namespace LetsCrawl

/-! ## Character and string helpers (ASCII fragment of Python `str` methods) -/

/-- ASCII lowercase of one character, as Python `str.lower` acts on ASCII. -/
def pyLowerChar (c : Char) : Char :=
  if 65 ≤ c.toNat ∧ c.toNat ≤ 90 then Char.ofNat (c.toNat + 32) else c

/-- ASCII lowercase of a string (`str.lower` restricted to ASCII input). -/
def pyLower (s : List Char) : List Char := s.map pyLowerChar

/-- Python `str.split(sep)` for a one-character separator. -/
def pySplit (sep : Char) : List Char → List (List Char)
  | [] => [[]]
  | c :: cs =>
    let r := pySplit sep cs
    if c = sep then [] :: r
    else
      match r with
      | [] => [[c]]
      | h :: t => (c :: h) :: t

/-- Split at the first occurrence of `sep`: Python `str.partition(sep)`
restricted to the found case; `none` when `sep` does not occur. -/
def splitFirst (sep : Char) : List Char → Option (List Char × List Char)
  | [] => none
  | c :: cs =>
    if c = sep then some ([], cs)
    else (splitFirst sep cs).map (fun p => (c :: p.1, p.2))

/-- Split at the last occurrence of `sep` (Python `str.rpartition(sep)`). -/
def splitLast (sep : Char) (l : List Char) : Option (List Char × List Char) :=
  match splitFirst sep l.reverse with
  | none => none
  | some (a, b) => some (b.reverse, a.reverse)

/-- ASCII decimal digit. -/
def isAsciiDigit (c : Char) : Bool := 48 ≤ c.toNat ∧ c.toNat ≤ 57

/-- ASCII hexadecimal digit (the set Python's `ipaddress._HEX_DIGITS` uses). -/
def isHexChar (c : Char) : Bool :=
  isAsciiDigit c ∨ (97 ≤ c.toNat ∧ c.toNat ≤ 102) ∨ (65 ≤ c.toNat ∧ c.toNat ≤ 70)

/-- Value of an ASCII hex digit. -/
def hexVal (c : Char) : Nat :=
  if isAsciiDigit c then c.toNat - 48
  else if 97 ≤ c.toNat ∧ c.toNat ≤ 102 then c.toNat - 87
  else c.toNat - 55

/-- ASCII letter. -/
def isAsciiAlpha (c : Char) : Bool :=
  (65 ≤ c.toNat ∧ c.toNat ≤ 90) ∨ (97 ≤ c.toNat ∧ c.toNat ≤ 122)

/-! ## `ipaddress.ip_address` (CPython 3.11) -/

/-- One dotted-quad octet, per `IPv4Address._parse_octet`: 1–3 ASCII decimal
digits, no leading zero (except `"0"` itself), value at most 255. -/
def parseOctet (l : List Char) : Option Nat :=
  if l = [] then none
  else if ¬ l.all isAsciiDigit then none
  else if 3 < l.length then none
  else if 1 < l.length ∧ l.headD ' ' = '0' then none
  else
    let v := l.foldl (fun a c => a * 10 + (c.toNat - 48)) 0
    if 255 < v then none else some v

/-- Traverse a list with a fallible parser, failing when any element
fails (the effect of Python's comprehensions over parsed parts). -/
def mapOption (f : α → Option β) : List α → Option (List β)
  | [] => some []
  | x :: xs =>
    match f x, mapOption f xs with
    | some y, some ys => some (y :: ys)
    | _, _ => none

/-- Python `IPv4Address._ip_int_from_string`: exactly four octets. -/
def parseIPv4 (l : List Char) : Option Nat :=
  match mapOption parseOctet (pySplit '.' l) with
  | some [a, b, c, d] => some (((a * 256 + b) * 256 + c) * 256 + d)
  | _ => none

/-- One IPv6 hextet, per `IPv6Address._parse_hextet`: 1–4 hex digits. -/
def parseHextet (l : List Char) : Option Nat :=
  if l = [] then none
  else if ¬ l.all isHexChar then none
  else if 4 < l.length then none
  else some (l.foldl (fun a c => a * 16 + hexVal c) 0)

/-- Lowercase hex rendering of a 16-bit value, as Python `'%x' % n`. -/
def natToHex (n : Nat) : List Char :=
  (Nat.toDigits 16 n).map pyLowerChar

/-- Indices of the empty parts strictly inside the list (candidates for the
`::` gap in `IPv6Address._ip_int_from_string`). -/
def innerEmptyIdxs (parts : List (List Char)) : List Nat :=
  (List.range parts.length).filter
    (fun i => 0 < i ∧ i + 1 < parts.length ∧ parts.getD i [' '] = [])

/-- Fold hextet values into an integer, high hextet first. -/
def foldHextets (vals : List Nat) : Nat :=
  vals.foldl (fun a h => a * 65536 + h) 0

/-- Hextet-group stage of `IPv6Address._ip_int_from_string`, after the
embedded-IPv4 tail has been replaced: locate the single `::` gap and
fold the hextets. -/
def parseIPv6parts (parts : List (List Char)) : Option Nat :=
  if 9 < parts.length then none
  else
    match innerEmptyIdxs parts with
    | [] =>
      if parts.length ≠ 8 then none
      else
        match mapOption parseHextet parts with
        | none => none
        | some vals => some (foldHextets vals)
    | [i] =>
      let hi0 := i
      let lo0 := parts.length - i - 1
      if parts.headD [' '] = [] ∧ hi0 ≠ 1 then none
      else if parts.getLastD [' '] = [] ∧ lo0 ≠ 1 then none
      else
        let hi := if parts.headD [' '] = [] then 0 else hi0
        let lo := if parts.getLastD [' '] = [] then 0 else lo0
        if 7 < hi + lo then none
        else
          let skipped := 8 - (hi + lo)
          match mapOption parseHextet (parts.take hi),
                mapOption parseHextet (parts.drop (parts.length - lo)) with
          | some hiVals, some loVals =>
            some ((foldHextets hiVals) * 65536 ^ (skipped + lo) +
                  foldHextets loVals)
          | _, _ => none
    | _ => none

/-- Python `IPv6Address._ip_int_from_string` on the address part (scope id already
stripped): handles the optional embedded IPv4 tail and a single `::` gap. -/
def parseIPv6core (l : List Char) : Option Nat :=
  let parts0 := pySplit ':' l
  if parts0.length < 3 then none
  else
    let withTail : Option (List (List Char)) :=
      if (parts0.getLastD []).contains '.' then
        match parseIPv4 (parts0.getLastD []) with
        | none => none
        | some v4 =>
          some (parts0.dropLast ++ [natToHex (v4 / 65536), natToHex (v4 % 65536)])
      else some parts0
    match withTail with
    | none => none
    | some parts => parseIPv6parts parts

/-- Python `IPv6Address.__init__` scope-id handling followed by the core parse:
an optional `%scope` suffix, which must be non-empty and `%`-free. -/
def parseIPv6 (l : List Char) : Option Nat :=
  match splitFirst '%' l with
  | none => parseIPv6core l
  | some (addr, scope) =>
    if scope = [] ∨ scope.contains '%' then none else parseIPv6core addr

/-- Result of `ipaddress.ip_address`: an IPv4 or IPv6 address value. -/
inductive PyIP where
  | v4 (n : Nat)
  | v6 (n : Nat)
deriving DecidableEq, Repr

/-- Python `ipaddress.ip_address(s)`: try IPv4 first, then IPv6. -/
def ip_address (l : List Char) : Option PyIP :=
  match parseIPv4 l with
  | some n => some (.v4 n)
  | none =>
    match parseIPv6 l with
    | some n => some (.v6 n)
    | none => none

/-- Property `is_loopback`: `127.0.0.0/8` for IPv4, `::1` for IPv6. -/
def ipIsLoopback : PyIP → Bool
  | .v4 n => n / 2 ^ 24 = 127
  | .v6 n => n = 1

/-- Property `is_link_local`: `169.254.0.0/16` for IPv4, `fe80::/10` for IPv6. -/
def ipIsLinkLocal : PyIP → Bool
  | .v4 n => n / 2 ^ 16 = 43518
  | .v6 n => n / 2 ^ 118 = 1018

/-- Property `is_private`, CPython 3.11 `_private_networks` membership. -/
def ipIsPrivate : PyIP → Bool
  | .v4 n =>
    n / 2 ^ 24 = 0 ∨ n / 2 ^ 24 = 10 ∨ n / 2 ^ 24 = 127 ∨
    n / 2 ^ 16 = 43518 ∨ n / 2 ^ 20 = 2753 ∨ n / 2 ^ 3 = 402653184 ∨
    n / 2 = 1610612821 ∨ n / 2 ^ 8 = 12582914 ∨ n / 2 ^ 16 = 49320 ∨
    n / 2 ^ 17 = 25353 ∨ n / 2 ^ 8 = 12989284 ∨ n / 2 ^ 8 = 13303921 ∨
    n / 2 ^ 28 = 15 ∨ n = 4294967295
  | .v6 n =>
    n = 1 ∨ n = 0 ∨ n / 2 ^ 32 = 65535 ∨ n / 2 ^ 64 = 72057594037927936 ∨
    n / 2 ^ 105 = 1048704 ∨ n / 2 ^ 96 = 536939960 ∨
    n / 2 ^ 121 = 126 ∨ n / 2 ^ 118 = 1018

/-- The cloud-metadata address `169.254.169.254` as an address value. -/
def awsMetadataIP : PyIP := .v4 2852039166

/-! ## `urllib.parse` (CPython 3.11): `urlsplit`, `urlparse`, `hostname` -/

/-- Characters of a string literal, for writing `List Char` constants. -/
def chars (s : String) : List Char := s.data

/-- Membership in Python's `_WHATWG_C0_CONTROL_OR_SPACE`. -/
def isC0ControlOrSpace (c : Char) : Bool := c.toNat ≤ 32

/-- Membership in Python's `_UNSAFE_URL_BYTES_TO_REMOVE` (tab, CR, LF). -/
def isUnsafeUrlByte (c : Char) : Bool := c = '\t' ∨ c = '\r' ∨ c = '\n'

/-- Preprocessing `urlsplit` applies to the URL: strip leading C0
controls/spaces, then remove tab, CR and LF everywhere. -/
def sanitizeUrl (l : List Char) : List Char :=
  (l.dropWhile isC0ControlOrSpace).filter (fun c => ¬ isUnsafeUrlByte c)

/-- Preprocessing `urlsplit` applies to the default scheme argument:
strip C0 controls/spaces on both sides, remove tab, CR and LF. -/
def sanitizeScheme (l : List Char) : List Char :=
  ((l.dropWhile isC0ControlOrSpace).reverse.dropWhile isC0ControlOrSpace).reverse.filter
    (fun c => ¬ isUnsafeUrlByte c)

/-- Membership in Python's `scheme_chars`. -/
def isSchemeChar (c : Char) : Bool :=
  isAsciiAlpha c ∨ isAsciiDigit c ∨ c = '+' ∨ c = '-' ∨ c = '.'

/-- Result record of `urlsplit` (scheme, netloc, path, query, fragment). -/
structure SplitResult where
  scheme : List Char
  netloc : List Char
  path : List Char
  query : List Char
  fragment : List Char
deriving DecidableEq, Repr

/-- Python `_splitnetloc`: the netloc runs until the first `/`, `?` or `#`. -/
def splitNetloc (l : List Char) : List Char × List Char :=
  let nl := l.takeWhile (fun c => c ≠ '/' ∧ c ≠ '?' ∧ c ≠ '#')
  (nl, l.drop nl.length)

/-- Python `netloc.partition('[')[2].partition(']')[0]`: the contents of
the first bracket pair of a netloc. -/
def bracketContent (nl : List Char) : List Char :=
  match splitFirst '[' nl with
  | some pr => pr.2.takeWhile (fun c => c ≠ ']')
  | none => []

/-- Python `_check_bracketed_host` as a boolean: an IPvFuture literal
`v<hex>+.<anything nonempty>`, or a string `ipaddress.ip_address` parses
as IPv6 (an IPv4 literal in brackets is rejected). -/
def checkBracketedHost (h : List Char) : Bool :=
  match h with
  | 'v' :: rest =>
    let hex := rest.takeWhile isHexChar
    decide (hex ≠ []) &&
      (match rest.drop hex.length with
       | '.' :: tl => decide (tl ≠ [])
       | _ => false)
  | _ =>
    match ip_address h with
    | some (.v6 _) => true
    | _ => false

/-- Netloc, fragment and query phases of `urlsplit`, applied after the
scheme has been extracted (`url2` is the remaining URL). -/
def urlsplitTail (scheme url2 : List Char) : Except String SplitResult :=
  let netlocStep : Except String (List Char × List Char) :=
    if url2.take 2 = ['/', '/'] then
      let nlRest := splitNetloc (url2.drop 2)
      let nl := nlRest.1
      if (nl.contains '[' ∧ ¬ nl.contains ']') ∨ (nl.contains ']' ∧ ¬ nl.contains '[') then
        Except.error "Invalid IPv6 URL"
      else if nl.contains '[' ∧ nl.contains ']' then
        if checkBracketedHost (bracketContent nl) then Except.ok nlRest
        else Except.error "invalid bracketed host"
      else Except.ok nlRest
    else Except.ok ([], url2)
  match netlocStep with
  | .error e => .error e
  | .ok (netloc, url3) =>
    let urlFrag : List Char × List Char :=
      match splitFirst '#' url3 with
      | some p => p
      | none => (url3, [])
    let pathQuery : List Char × List Char :=
      match splitFirst '?' urlFrag.1 with
      | some p => p
      | none => (urlFrag.1, [])
    .ok ⟨scheme, netloc, pathQuery.1, pathQuery.2, urlFrag.2⟩

/-- Python `urlsplit(url, scheme, allow_fragments=True)`; raises (returns
`Except.error`) exactly on invalid bracketed netlocs.  The NFKC netloc
check is a no-op on ASCII input and is omitted. -/
def urlsplitCore (url0 schemeDefault0 : List Char) : Except String SplitResult :=
  let url1 := sanitizeUrl url0
  let scheme0 := sanitizeScheme schemeDefault0
  let schemeUrl : List Char × List Char :=
    match splitFirst ':' url1 with
    | some (before, after) =>
      if before ≠ [] ∧ isAsciiAlpha (before.headD ' ') ∧ (before.drop 1).all isSchemeChar then
        (pyLower before, after)
      else (scheme0, url1)
    | none => (scheme0, url1)
  urlsplitTail schemeUrl.1 schemeUrl.2

/-- Python `uses_relative` scheme list. -/
def uses_relative : List (List Char) :=
  [chars "", chars "ftp", chars "http", chars "gopher", chars "nntp", chars "imap",
   chars "wais", chars "file", chars "https", chars "shttp", chars "mms",
   chars "prospero", chars "rtsp", chars "rtspu", chars "sftp", chars "svn",
   chars "svn+ssh", chars "ws", chars "wss"]

/-- Python `uses_netloc` scheme list. -/
def uses_netloc : List (List Char) :=
  [chars "", chars "ftp", chars "http", chars "gopher", chars "nntp", chars "telnet",
   chars "imap", chars "wais", chars "file", chars "mms", chars "https", chars "shttp",
   chars "snews", chars "prospero", chars "rtsp", chars "rtspu", chars "rsync",
   chars "svn", chars "svn+ssh", chars "sftp", chars "nfs", chars "git",
   chars "git+ssh", chars "ws", chars "wss", chars "itms-services"]

/-- Python `uses_params` scheme list. -/
def uses_params : List (List Char) :=
  [chars "", chars "ftp", chars "hdl", chars "prospero", chars "http", chars "imap",
   chars "https", chars "shttp", chars "rtsp", chars "rtspu", chars "sip",
   chars "sips", chars "mms", chars "sftp", chars "tel"]

/-- Python `_splitparams`: split `;params` off the last path segment. -/
def splitParams (url : List Char) : List Char × List Char :=
  if url.contains '/' then
    match splitLast '/' url with
    | some (before, after) =>
      match splitFirst ';' after with
      | some (a, b) => (before ++ '/' :: a, b)
      | none => (url, [])
    | none => (url, [])
  else
    match splitFirst ';' url with
    | some (a, b) => (a, b)
    | none => (url, [])

/-- Result record of `urlparse` (scheme, netloc, path, params, query, fragment). -/
structure UrlParts where
  scheme : List Char
  netloc : List Char
  path : List Char
  params : List Char
  query : List Char
  fragment : List Char
deriving DecidableEq, Repr

/-- Python `urlparse(url, scheme, allow_fragments=True)`. -/
def urlparseCore (url schemeDefault : List Char) : Except String UrlParts :=
  match urlsplitCore url schemeDefault with
  | .error e => .error e
  | .ok p =>
    if p.scheme ∈ uses_params ∧ p.path.contains ';' then
      let pp := splitParams p.path
      .ok ⟨p.scheme, p.netloc, pp.1, pp.2, p.query, p.fragment⟩
    else
      .ok ⟨p.scheme, p.netloc, p.path, [], p.query, p.fragment⟩

/-- Python `_hostinfo` host part: strip userinfo at the last `@`; a
bracketed host is the bracket contents, otherwise the host runs until
the first `:`. -/
def hostOf (netloc : List Char) : List Char :=
  let hostinfo :=
    match splitLast '@' netloc with
    | some (_, after) => after
    | none => netloc
  match splitFirst '[' hostinfo with
  | some (_, r) => r.takeWhile (fun c => c ≠ ']')
  | none => hostinfo.takeWhile (fun c => c ≠ ':')

/-- Python `SplitResult.hostname` property: lowercased host, `None` when
empty. -/
def hostnameOf (netloc : List Char) : Option (List Char) :=
  let h := hostOf netloc
  if h = [] then none else some (pyLower h)

/-! ## `urllib.parse`: `urlunsplit`, `urlunparse`, `urljoin` -/

/-- Python `urlunsplit` (CPython 3.11.6: a scheme from `uses_netloc`
forces the `//` separator even when the netloc is empty). -/
def urlunsplitCore (scheme netloc path query fragment : List Char) : List Char :=
  let url1 :=
    if netloc ≠ [] ∨ (scheme ≠ [] ∧ scheme ∈ uses_netloc ∧ path.take 2 ≠ ['/', '/']) then
      let p := if path ≠ [] ∧ path.headD ' ' ≠ '/' then '/' :: path else path
      '/' :: '/' :: (netloc ++ p)
    else path
  let url2 := if scheme ≠ [] then scheme ++ ':' :: url1 else url1
  let url3 := if query ≠ [] then url2 ++ '?' :: query else url2
  if fragment ≠ [] then url3 ++ '#' :: fragment else url3

/-- Python `urlunparse`: re-attach params to the path, then `urlunsplit`. -/
def urlunparseCore (p : UrlParts) : List Char :=
  let url := if p.params ≠ [] then p.path ++ ';' :: p.params else p.path
  urlunsplitCore p.scheme p.netloc url p.query p.fragment

/-- Python `'/'.join` on path segments. -/
def joinSlash (segs : List (List Char)) : List Char :=
  List.intercalate ['/'] segs

/-- Relative-path segment resolution step of `urljoin`: pop on `..`,
skip `.`, append otherwise. -/
def resolveSegments (segments : List (List Char)) : List (List Char) :=
  let resolved := segments.foldl
    (fun acc seg =>
      if seg = chars ".." then acc.dropLast
      else if seg = chars "." then acc
      else acc ++ [seg]) ([] : List (List Char))
  if segments.getLastD [] = chars ".." ∨ segments.getLastD [] = chars "." then
    resolved ++ [[]]
  else resolved

/-- Python `urljoin(base, url)` (CPython 3.11, `allow_fragments=True`);
propagates the parse errors `urlparse` can raise. -/
def urljoinCore (base url : List Char) : Except String (List Char) :=
  if base = [] then .ok url
  else if url = [] then .ok base
  else
    match urlparseCore base [] with
    | .error e => .error e
    | .ok b =>
      match urlparseCore url b.scheme with
      | .error e => .error e
      | .ok u =>
        if u.scheme ≠ b.scheme ∨ u.scheme ∉ uses_relative then .ok url
        else if u.scheme ∈ uses_netloc ∧ u.netloc ≠ [] then
          .ok (urlunparseCore ⟨u.scheme, u.netloc, u.path, u.params, u.query, u.fragment⟩)
        else
          let netloc := if u.scheme ∈ uses_netloc then b.netloc else u.netloc
          if u.path = [] ∧ u.params = [] then
            let query := if u.query = [] then b.query else u.query
            .ok (urlunparseCore ⟨u.scheme, netloc, b.path, b.params, query, u.fragment⟩)
          else
            let baseParts0 := pySplit '/' b.path
            let baseParts :=
              if baseParts0.getLastD [] ≠ [] then baseParts0.dropLast else baseParts0
            let segments :=
              if u.path.headD ' ' = '/' then pySplit '/' u.path
              else
                match baseParts ++ pySplit '/' u.path with
                | [] => []
                | [x] => [x]
                | x :: rest =>
                  x :: ((rest.dropLast.filter (fun s => s ≠ [])) ++ [rest.getLastD []])
            let joined := joinSlash (resolveSegments segments)
            let path := if joined = [] then ['/'] else joined
            .ok (urlunparseCore ⟨u.scheme, netloc, path, u.params, u.query, u.fragment⟩)

/-! ## `url_utils.normalize_url` -/

/-- Embedding of `normalize_url` from `src/url_utils.py` on character
lists: resolve against the base with `urljoin`, re-parse, and rebuild as
`scheme.lower() + "://" + netloc.lower() + path` plus the query when
present (fragment and params dropped).  Parse errors propagate, as the
source has no handler. -/
def normalize_urlCore (url baseUrl : List Char) : Except String (List Char) :=
  match urljoinCore baseUrl url with
  | .error e => .error e
  | .ok absolute =>
    match urlparseCore absolute [] with
    | .error e => .error e
    | .ok p =>
      let normalized := pyLower p.scheme ++ chars "://" ++ pyLower p.netloc ++ p.path
      .ok (if p.query ≠ [] then normalized ++ '?' :: p.query else normalized)

/-- String-level `normalize_url`. -/
def normalize_url (url baseUrl : String) : Except String String :=
  (normalize_urlCore url.data baseUrl.data).map (fun l => ⟨l⟩)

/-! ## `url_utils.is_safe_url` -/

/-- Embedding of `is_safe_url` from `src/url_utils.py`: parse the URL
(fail-closed on parse errors), take `parsed.hostname` with the
`netloc.split(":")[0]` fallback, block the two localhost names, then
block literal IPs that are loopback, Python-private, link-local, or the
exact cloud-metadata address. -/
def is_safe_url (url : String) : Bool :=
  match urlparseCore url.data [] with
  | .error _ => false
  | .ok p =>
    let hostname :=
      match hostnameOf p.netloc with
      | some h => h
      | none => (pySplit ':' p.netloc).headD []
    if pyLower hostname = chars "localhost" ∨
       pyLower hostname = chars "localhost.localdomain" then false
    else
      match ip_address hostname with
      | none => true
      | some ip =>
        if ipIsLoopback ip then false
        else if ipIsPrivate ip then false
        else if ipIsLinkLocal ip then false
        else if ip = awsMetadataIP then false
        else true

/-! ## `security.RateLimiter` (idealized time)

The limiter's `acquire` runs under a lock; time is modelled explicitly:
`time.time()` at entry is the call's clock value, `asyncio.sleep` is
exact, and the `time.time()` after the sleep is entry time plus slept
time.  Lock serialization means each call's entry time is at least the
previous call's grant time. -/

/-- One `acquire`: from the configured delay, the stored `_last_fetch_time`
and the entry clock `now`, return the slept duration and the new
`_last_fetch_time` (the grant moment). -/
def acquire (delay last now : ℚ) : ℚ × ℚ :=
  if now - last < delay then (delay - (now - last), now + (delay - (now - last)))
  else (0, now)

/-- Grant times of a serialized sequence of `acquire` calls with the given
entry times, threading `_last_fetch_time`. -/
def acquireGrants (delay : ℚ) : ℚ → List ℚ → List ℚ
  | _, [] => []
  | last, a :: as => (acquire delay last a).2 :: acquireGrants delay (acquire delay last a).2 as

/-- Slept durations of the same serialized sequence. -/
def acquireWaits (delay : ℚ) : ℚ → List ℚ → List ℚ
  | _, [] => []
  | last, a :: as => (acquire delay last a).1 :: acquireWaits delay (acquire delay last a).2 as

/-- Lock serialization: each call enters no earlier than the previous
grant (and the first no earlier than the stored time). -/
def SeqValid (delay : ℚ) : ℚ → List ℚ → Prop
  | _, [] => True
  | last, a :: as => last ≤ a ∧ SeqValid delay (acquire delay last a).2 as

/-! ## `security.RobotsTxtChecker` -/

/-- Cache plus an instrumentation trace of performed robots.txt fetches,
recorded as `(domain, robots_url)` pairs in order. -/
structure RobotsState (R : Type) where
  cache : List (List Char × R)
  trace : List (List Char × List Char)

/-- Fresh checker state (`__init__`: empty cache). -/
def robotsInit {R : Type} : RobotsState R := ⟨[], []⟩

/-- Python dict lookup on the association-list cache. -/
def findCache {R : Type} : List (List Char × R) → List Char → Option R
  | [], _ => none
  | (k, v) :: rest, d => if k = d then some v else findCache rest d

/-- The robots.txt URL built in `can_fetch`:
`f"{parsed_url.scheme}://{domain}/robots.txt"`. -/
def robotsUrlOf (scheme domain : List Char) : List Char :=
  scheme ++ chars "://" ++ domain ++ chars "/robots.txt"

/-- Embedding of `RobotsTxtChecker.can_fetch`: derive the domain as
`urlparse(url).netloc`; on a cache miss, read and parse the robots file
(`readRobots`, which may raise) and cache it keyed by the domain; then
evaluate the parser's verdict (`evalRobots`).  `R` is the abstract type
of a parsed `RobotFileParser`. -/
def can_fetch {R : Type} (readRobots : List Char → Except String R)
    (evalRobots : R → List Char → List Char → Bool)
    (st : RobotsState R) (userAgent url : List Char) :
    Except String (Bool × RobotsState R) :=
  match urlparseCore url [] with
  | .error e => .error e
  | .ok p =>
    let domain := p.netloc
    match findCache st.cache domain with
    | none =>
      let robots_url := robotsUrlOf p.scheme domain
      match readRobots robots_url with
      | .error e => .error e
      | .ok rp =>
        .ok (evalRobots rp userAgent url,
             ⟨st.cache ++ [(domain, rp)], st.trace ++ [(domain, robots_url)]⟩)
    | some rp => .ok (evalRobots rp userAgent url, st)

/-- A sequence of `can_fetch` calls on one checker instance; a raising
call leaves the state unchanged (the exception escapes before the cache
is filled) and later calls proceed. -/
def runQueries {R : Type} (readRobots : List Char → Except String R)
    (evalRobots : R → List Char → List Char → Bool) :
    RobotsState R → List (List Char × List Char) →
    List (Except String Bool) × RobotsState R
  | st, [] => ([], st)
  | st, (ua, url) :: qs =>
    match can_fetch readRobots evalRobots st ua url with
    | .error e =>
      let r := runQueries readRobots evalRobots st qs
      (.error e :: r.1, r.2)
    | .ok (b, st2) =>
      let r := runQueries readRobots evalRobots st2 qs
      (.ok b :: r.1, r.2)

/-! ## `fetcher.AsyncFetcher` -/

/-- Outcome of one HTTP GET attempt inside `_fetch_with_retry`: an
`aiohttp.ClientError`, some other exception, or a response with a status
and body. -/
inductive Attempt where
  | clientError
  | otherError (msg : String)
  | response (status : Nat) (body : String)

/-- The tenacity policy on `_fetch_with_retry`: `stop_after_attempt(3)`. -/
def retryAttempts : Nat := 3

/-- Attempt loop of the tenacity-wrapped `_fetch_with_retry`: `http n` is
the outcome of attempt `n`; `ClientError` is retried while attempts
remain and reraised after the last; any other exception propagates at
once; a 200 response yields its body, any other status yields `None`
without retrying. -/
def fetchRetryGo (http : Nat → Attempt) : Nat → Nat → Except String (Option String)
  | _, 0 => .error "ClientError"
  | n, Nat.succ remaining =>
    match http n with
    | .clientError =>
      if remaining = 0 then .error "ClientError" else fetchRetryGo http (n + 1) remaining
    | .otherError m => .error m
    | .response 200 body => .ok (some body)
    | .response _ _ => .ok none

/-- Embedding of `AsyncFetcher._fetch_with_retry` with its retry
decorator. -/
def fetch_with_retry (http : Nat → Attempt) : Except String (Option String) :=
  fetchRetryGo http 1 retryAttempts

/-- Embedding of `AsyncFetcher.fetch`: the SSRF check, then the robots
check — whose exceptions are NOT caught, since the source's
`try` covers only the retried GET — then the rate-limiter acquire
(time-irrelevant here), then the retried GET with both `ClientError` and
every other exception converted to `None`. -/
def fetch {R : Type} (readRobots : List Char → Except String R)
    (evalRobots : R → List Char → List Char → Bool)
    (http : Nat → Attempt) (st : RobotsState R)
    (userAgent url : String) : Except String (Option String × RobotsState R) :=
  if ¬ is_safe_url url then .ok (none, st)
  else
    match can_fetch readRobots evalRobots st userAgent.data url.data with
    | .error e => .error e
    | .ok (allowed, st2) =>
      if ¬ allowed then .ok (none, st2)
      else
        match fetch_with_retry http with
        | .error _ => .ok (none, st2)
        | .ok r => .ok (r, st2)

/-! ## `crawler.WebCrawler` -/

/-- External collaborators of one crawl, over an abstract URL type `α`:
`fetchUrl` is the composed `AsyncFetcher.fetch` outcome for a URL
(deterministic within one crawl step), `extractLinks html url` is
`_extract_links` — the anchor hrefs of `html` each normalized against
the current page URL — and `netlocOf` is `urlparse(url).netloc` as used
by `_should_crawl`. -/
structure CrawlOracle (α : Type) where
  fetchUrl : α → Option String
  extractLinks : String → α → List α
  netlocOf : α → List Char

/-- Crawler loop state: FIFO frontier, visited set, the results mapping
in insertion order, plus an instrumentation log of fetcher invocations
`(url, succeeded?)`. -/
structure CrawlState (α : Type) where
  frontier : List α
  visited : Finset α
  results : List (α × String)
  fetchLog : List (α × Bool)

/-- Embedding of `WebCrawler._should_crawl`: not already visited, and
`urlparse(url).netloc == urlparse(start_url).netloc`. -/
def should_crawl [DecidableEq α] (o : CrawlOracle α) (startUrl : α)
    (visited : Finset α) (url : α) : Bool :=
  if url ∈ visited then false
  else if o.netlocOf url ≠ o.netlocOf startUrl then false
  else true

/-- Embedding of the `while` loop of `WebCrawler.crawl`, with explicit
fuel: loop while the frontier is non-empty and `|visited| < max_pages`;
pop FIFO; skip already-visited URLs; on fetch failure move on; on
success mark visited, record the result, and enqueue each extracted link
passing `_should_crawl`. -/
def crawlLoop [DecidableEq α] (o : CrawlOracle α) (startUrl : α) (maxPages : Nat) :
    Nat → CrawlState α → CrawlState α
  | 0, s => s
  | Nat.succ fuel, s =>
    match s.frontier with
    | [] => s
    | url :: rest =>
      if s.visited.card < maxPages then
        if url ∈ s.visited then
          crawlLoop o startUrl maxPages fuel
            ⟨rest, s.visited, s.results, s.fetchLog⟩
        else
          match o.fetchUrl url with
          | none =>
            crawlLoop o startUrl maxPages fuel
              ⟨rest, s.visited, s.results, s.fetchLog ++ [(url, false)]⟩
          | some html =>
            let visited2 := insert url s.visited
            let newLinks :=
              (o.extractLinks html url).filter (fun l => should_crawl o startUrl visited2 l)
            crawlLoop o startUrl maxPages fuel
              ⟨rest ++ newLinks, visited2, s.results ++ [(url, html)],
               s.fetchLog ++ [(url, true)]⟩
      else s

/-- Crawl-start state: frontier seeded with the start URL, everything
else empty. -/
def crawlInit (startUrl : α) : CrawlState α := ⟨[startUrl], ∅, [], []⟩

/-- Embedding of `WebCrawler.crawl` from the seeded state. -/
def crawl [DecidableEq α] (o : CrawlOracle α) (startUrl : α)
    (maxPages fuel : Nat) : CrawlState α :=
  crawlLoop o startUrl maxPages fuel (crawlInit startUrl)

/-- URLs whose fetcher invocation succeeded, in log order. -/
def successUrls (log : List (α × Bool)) : List α :=
  log.filterMap (fun p => if p.2 then some p.1 else none)

/-! ## Scenario oracles for the crawl claims -/

/-- A chain of pages over `Nat` URLs on one domain: every page fetches
successfully and links only to the next page. -/
def chainOracle : CrawlOracle Nat :=
  ⟨fun _ => some "page", fun _ cur => [cur + 1], fun _ => []⟩

/-- A single page whose content carries `k` links to itself. -/
def selfLoopOracle (k : Nat) : CrawlOracle Nat :=
  ⟨fun _ => some "page", fun _ cur => List.replicate k cur, fun _ => []⟩

/-- One domain where page 0 links to pages 1 and 2, page 1 always fails
to fetch, and page 2 links back to page 1. -/
def retryOracle : CrawlOracle Nat :=
  ⟨fun n => if n = 0 then some "A" else if n = 2 then some "B" else none,
   fun html _ => if html = "A" then [1, 2] else if html = "B" then [1] else [],
   fun _ => []⟩

/-- The crawler's domain key `urlparse(url).netloc` on string URLs
(total here: the crawl scenarios below use only parseable URLs). -/
def urlNetloc (u : List Char) : List Char :=
  match urlparseCore u [] with
  | .ok p => p.netloc
  | .error _ => []

/-- A string-URL site: the start page's content holds one anchor to
`http://example.com:80/a` (same host as the start URL, explicit default
port), which `_extract_links` normalizes against the current page. -/
def portOracle : CrawlOracle (List Char) :=
  ⟨fun u => if u = chars "http://example.com/" then some "page1" else none,
   fun html cur =>
     if html = "page1" then
       match normalize_urlCore (chars "http://example.com:80/a") cur with
       | .ok x => [x]
       | .error _ => []
     else [],
   urlNetloc⟩

/-- Blocking predicate following the amended C2 claim's declarative
wording: a URL is unsafe exactly when parsing fails (fail-closed), when
the hostname case-insensitively equals a localhost name, or when the
hostname is a literal IP address that is loopback, Python-private, or
link-local. -/
def unsafeSpec (url : String) : Bool :=
  match urlparseCore url.data [] with
  | .error _ => true
  | .ok p =>
    let hostname :=
      match hostnameOf p.netloc with
      | some h => h
      | none => (pySplit ':' p.netloc).headD []
    if pyLower hostname = chars "localhost" ∨
       pyLower hostname = chars "localhost.localdomain" then true
    else
      match ip_address hostname with
      | none => false
      | some ip => ipIsLoopback ip || ipIsPrivate ip || ipIsLinkLocal ip

/-- RFC 1918 private ranges exactly as the original C2 claim words them:
10/8, 172.16/12, 192.168/16. -/
def isRFC1918 : PyIP → Bool
  | .v4 n => n / 2 ^ 24 = 10 ∨ n / 2 ^ 20 = 2753 ∨ n / 2 ^ 16 = 49320
  | .v6 _ => false

/-! ## Helper definitions for the normalization-idempotence analysis -/

/-- Optional query suffix of the rebuilt URL. -/
def optQuery (q : List Char) : List Char := if q = [] then [] else '?' :: q

/-- The string `normalize_url` rebuilds from a parse result. -/
def rebuildUrl (p : UrlParts) : List Char :=
  pyLower p.scheme ++ chars "://" ++ pyLower p.netloc ++ p.path ++ optQuery p.query

/-- No tab, CR or LF anywhere (the bytes `urlsplit` removes). -/
def CleanUrl (l : List Char) : Prop := ∀ c ∈ l, isUnsafeUrlByte c = false

/-- A non-empty scheme in the exact shape `urlsplit` extracts: ASCII
letter first, scheme characters throughout, already lowercase. -/
def ValidLowerScheme (s : List Char) : Prop :=
  s ≠ [] ∧ isAsciiAlpha (s.headD ' ') = true ∧ s.all isSchemeChar = true ∧ pyLower s = s

/-- The bracket well-formedness `urlsplit` enforces on a netloc. -/
def BracketOK (nl : List Char) : Prop :=
  ('[' ∈ nl ↔ ']' ∈ nl) ∧ ('[' ∈ nl → checkBracketedHost (bracketContent nl) = true)

/-- A punctuation character: outside both ASCII letter ranges, hence
fixed by lowercasing and never produced by it. -/
def PunctChar (d : Char) : Prop :=
  d.toNat < 65 ∨ (90 < d.toNat ∧ d.toNat < 97) ∨ 122 < d.toNat

instance (d : Char) : Decidable (PunctChar d) := by
  unfold PunctChar
  infer_instance

/-! ## Crawl-loop lemmas -/

section CrawlLemmas

variable {α : Type} [DecidableEq α]

theorem crawlLoop_succ_nil (o : CrawlOracle α) (st : α) (mp f : Nat)
    (v : Finset α) (r : List (α × String)) (l : List (α × Bool)) :
    crawlLoop o st mp (f + 1) ⟨[], v, r, l⟩ = ⟨[], v, r, l⟩ := rfl

theorem crawlLoop_succ_cons (o : CrawlOracle α) (st : α) (mp f : Nat) (url : α)
    (rest : List α) (v : Finset α) (r : List (α × String)) (l : List (α × Bool)) :
    crawlLoop o st mp (f + 1) ⟨url :: rest, v, r, l⟩ =
      if v.card < mp then
        if url ∈ v then crawlLoop o st mp f ⟨rest, v, r, l⟩
        else
          match o.fetchUrl url with
          | none => crawlLoop o st mp f ⟨rest, v, r, l ++ [(url, false)]⟩
          | some html =>
            crawlLoop o st mp f
              ⟨rest ++ (o.extractLinks html url).filter
                  (fun x => should_crawl o st (insert url v) x),
               insert url v, r ++ [(url, html)], l ++ [(url, true)]⟩
      else ⟨url :: rest, v, r, l⟩ := rfl

theorem crawlLoop_nil (o : CrawlOracle α) (st : α) (mp fuel : Nat) (s : CrawlState α)
    (h : s.frontier = []) : crawlLoop o st mp fuel s = s := by
  obtain ⟨front, v, r, l⟩ := s
  simp only [CrawlState.frontier] at h
  subst h
  cases fuel with
  | zero => rfl
  | succ f => rfl

theorem crawlLoop_stop (o : CrawlOracle α) (st : α) (mp fuel : Nat) (s : CrawlState α)
    (h : mp ≤ s.visited.card) : crawlLoop o st mp fuel s = s := by
  obtain ⟨front, v, r, l⟩ := s
  simp only [CrawlState.visited] at h
  cases fuel with
  | zero => rfl
  | succ f =>
    cases front with
    | nil => rfl
    | cons url rest => rw [crawlLoop_succ_cons, if_neg (by omega)]

theorem crawlLoop_card_le (o : CrawlOracle α) (st : α) (mp : Nat) :
    ∀ (fuel : Nat) (s : CrawlState α), s.visited.card ≤ mp →
      (crawlLoop o st mp fuel s).visited.card ≤ mp := by
  intro fuel
  induction fuel with
  | zero => intro s h; exact h
  | succ f ih =>
    intro s h
    obtain ⟨front, v, r, l⟩ := s
    simp only [CrawlState.visited] at h
    cases front with
    | nil => exact h
    | cons url rest =>
      rw [crawlLoop_succ_cons]
      by_cases hcard : v.card < mp
      · rw [if_pos hcard]
        by_cases hvis : url ∈ v
        · rw [if_pos hvis]; exact ih _ h
        · rw [if_neg hvis]
          cases hfetch : o.fetchUrl url with
          | none => exact ih _ h
          | some html =>
            refine ih _ ?_
            have hle : (insert url v).card ≤ v.card + 1 := Finset.card_insert_le url v
            simp only [CrawlState.visited]
            omega
      · rw [if_neg hcard]; exact h

theorem successUrls_append (l1 l2 : List (α × Bool)) :
    successUrls (l1 ++ l2) = successUrls l1 ++ successUrls l2 := by
  simp [successUrls]

theorem successUrls_true (l : List (α × Bool)) (u : α) :
    successUrls (l ++ [(u, true)]) = successUrls l ++ [u] := by
  simp [successUrls]

theorem successUrls_false (l : List (α × Bool)) (u : α) :
    successUrls (l ++ [(u, false)]) = successUrls l := by
  simp [successUrls]

theorem crawlLoop_success_inv (o : CrawlOracle α) (st : α) (mp : Nat) :
    ∀ (fuel : Nat) (s : CrawlState α),
      (successUrls s.fetchLog).Nodup →
      (∀ u ∈ successUrls s.fetchLog, u ∈ s.visited) →
      (successUrls (crawlLoop o st mp fuel s).fetchLog).Nodup ∧
        ∀ u ∈ successUrls (crawlLoop o st mp fuel s).fetchLog,
          u ∈ (crawlLoop o st mp fuel s).visited := by
  intro fuel
  induction fuel with
  | zero => intro s h1 h2; exact ⟨h1, h2⟩
  | succ f ih =>
    intro s h1 h2
    obtain ⟨front, v, r, l⟩ := s
    simp only [CrawlState.fetchLog, CrawlState.visited] at h1 h2
    cases front with
    | nil => exact ⟨h1, h2⟩
    | cons url rest =>
      rw [crawlLoop_succ_cons]
      by_cases hcard : v.card < mp
      · rw [if_pos hcard]
        by_cases hvis : url ∈ v
        · rw [if_pos hvis]; exact ih _ h1 h2
        · rw [if_neg hvis]
          cases hfetch : o.fetchUrl url with
          | none =>
            refine ih _ ?_ ?_
            · simpa only [CrawlState.fetchLog, successUrls_false] using h1
            · simpa only [CrawlState.fetchLog, CrawlState.visited, successUrls_false]
                using h2
          | some html =>
            refine ih _ ?_ ?_
            · have hne : url ∉ successUrls l := fun hmem => hvis (h2 url hmem)
              simp only [CrawlState.fetchLog, successUrls_true]
              exact List.nodup_append.mpr ⟨h1, List.nodup_singleton url, by
                simpa [List.disjoint_singleton] using hne⟩
            · intro u hu
              simp only [CrawlState.fetchLog, successUrls_true] at hu
              simp only [CrawlState.visited]
              rcases List.mem_append.mp hu with hu1 | hu2
              · exact Finset.mem_insert_of_mem (h2 u hu1)
              · have hequ : u = url := by simpa using hu2
                simp [hequ]
      · rw [if_neg hcard]; exact ⟨h1, h2⟩

theorem crawlLoop_visited_eq_success (o : CrawlOracle α) (st : α) (mp : Nat) :
    ∀ (fuel : Nat) (s : CrawlState α),
      s.visited = (successUrls s.fetchLog).toFinset →
      (crawlLoop o st mp fuel s).visited =
        (successUrls (crawlLoop o st mp fuel s).fetchLog).toFinset := by
  intro fuel
  induction fuel with
  | zero => intro s h; exact h
  | succ f ih =>
    intro s h
    obtain ⟨front, v, r, l⟩ := s
    simp only [CrawlState.fetchLog, CrawlState.visited] at h
    cases front with
    | nil => exact h
    | cons url rest =>
      rw [crawlLoop_succ_cons]
      by_cases hcard : v.card < mp
      · rw [if_pos hcard]
        by_cases hvis : url ∈ v
        · rw [if_pos hvis]; exact ih _ h
        · rw [if_neg hvis]
          cases hfetch : o.fetchUrl url with
          | none =>
            refine ih _ ?_
            simpa only [CrawlState.fetchLog, CrawlState.visited, successUrls_false]
              using h
          | some html =>
            refine ih _ ?_
            simp only [CrawlState.fetchLog, CrawlState.visited, successUrls_true,
              List.toFinset_append, List.toFinset_cons, List.toFinset_nil]
            rw [h]
            ext a
            simp [or_comm]
      · rw [if_neg hcard]; exact h

theorem should_crawl_eq (o : CrawlOracle α) (st : α) (v : Finset α) (u : α) :
    should_crawl o st v u =
      (decide (u ∉ v) && decide (o.netlocOf u = o.netlocOf st)) := by
  unfold should_crawl
  split_ifs with h1 h2
  · simp [h1]
  · simp [h2]
  · simp only [ne_eq, not_not] at h2
    simp [h1, h2]

theorem should_crawl_iff (o : CrawlOracle α) (st : α) (v : Finset α) (u : α) :
    should_crawl o st v u = true ↔ u ∉ v ∧ o.netlocOf u = o.netlocOf st := by
  rw [should_crawl_eq]
  simp

theorem crawlLoop_fetch_step (o : CrawlOracle α) (st : α) (mp f : Nat) (url : α)
    (rest : List α) (v : Finset α) (r : List (α × String)) (l : List (α × Bool))
    (html : String) (hcard : v.card < mp) (hvis : url ∉ v)
    (hf : o.fetchUrl url = some html) :
    crawlLoop o st mp (f + 1) ⟨url :: rest, v, r, l⟩ =
      crawlLoop o st mp f
        ⟨rest ++ (o.extractLinks html url).filter
            (fun x => decide (x ∉ insert url v) && decide (o.netlocOf x = o.netlocOf st)),
         insert url v, r ++ [(url, html)], l ++ [(url, true)]⟩ := by
  rw [crawlLoop_succ_cons, if_pos hcard, if_neg hvis, hf]
  show crawlLoop o st mp f
      ⟨rest ++ (o.extractLinks html url).filter
          (fun x => should_crawl o st (insert url v) x),
       insert url v, r ++ [(url, html)], l ++ [(url, true)]⟩ = _
  rw [List.filter_congr (fun x _ => should_crawl_eq o st (insert url v) x)]

end CrawlLemmas

/-- In the chain scenario with budget `N`, starting from page `k < N`
with `range k` visited, enough fuel makes the visited set exactly
`range N`. -/
theorem chainLoop_visited (N : Nat) :
    ∀ (fuel k : Nat) (r : List (Nat × String)) (l : List (Nat × Bool)),
      k < N → N ≤ k + fuel →
      (crawlLoop chainOracle 0 N fuel ⟨[k], Finset.range k, r, l⟩).visited =
        Finset.range N := by
  intro fuel
  induction fuel with
  | zero => intro k r l h1 h2; omega
  | succ f ih =>
    intro k r l h1 h2
    rw [crawlLoop_succ_cons, if_pos (by simpa using h1),
      if_neg (by simp : ¬ k ∈ Finset.range k)]
    show (crawlLoop chainOracle 0 N f
        ⟨[] ++ ([k + 1].filter fun x => should_crawl chainOracle 0 (insert k (Finset.range k)) x),
         insert k (Finset.range k), r ++ [(k, "page")], l ++ [(k, true)]⟩).visited =
      Finset.range N
    have hmem : (k + 1) ∉ insert k (Finset.range k) := by
      simp only [Finset.mem_insert, Finset.mem_range]
      omega
    have hsc : should_crawl chainOracle 0 (insert k (Finset.range k)) (k + 1) = true := by
      rw [should_crawl_eq]
      simp [hmem, chainOracle]
    rw [List.nil_append, show ([k + 1].filter
        fun x => should_crawl chainOracle 0 (insert k (Finset.range k)) x) = [k + 1] by
      simp [hsc], ← Finset.range_succ]
    by_cases hk : k + 1 < N
    · exact ih (k + 1) _ _ hk (by omega)
    · have hN : N = k + 1 := by omega
      rw [crawlLoop_stop]
      · simp [hN]
      · simp [hN]

/-- The chain crawl with budget `N` and fuel at least `N` visits exactly
the pages `0, …, N-1`. -/
theorem chain_crawl_visited (N extra : Nat) :
    (crawl chainOracle 0 N (N + extra)).visited = Finset.range N := by
  cases N with
  | zero =>
    rw [crawl, crawlLoop_stop]
    · rfl
    · simp [crawlInit]
  | succ n =>
    rw [crawl, show crawlInit 0 = (⟨[0], Finset.range 0, [], []⟩ : CrawlState Nat) from rfl]
    exact chainLoop_visited (n + 1) (n + 1 + extra) 0 [] [] (by omega) (by omega)

/-- C3: throughout every execution of `WebCrawler.crawl` the visited set
never exceeds `max_pages`; the loop returns unchanged as soon as
`|visited|` has reached `max_pages`; and on a chain of pages each
linking only to the next, a crawl configured with `maxPages = N` visits
exactly `N` pages. -/
theorem crawl_respects_page_budget :
    (∀ (α : Type) [DecidableEq α] (o : CrawlOracle α) (st : α) (mp fuel : Nat)
        (s : CrawlState α), s.visited.card ≤ mp →
          (crawlLoop o st mp fuel s).visited.card ≤ mp)
    ∧ (∀ (α : Type) [DecidableEq α] (o : CrawlOracle α) (st : α) (mp fuel : Nat)
        (s : CrawlState α), mp ≤ s.visited.card → crawlLoop o st mp fuel s = s)
    ∧ (∀ N extra : Nat,
        (crawl chainOracle 0 N (N + extra)).visited = Finset.range N
        ∧ (crawl chainOracle 0 N (N + extra)).visited.card = N) := by
  refine ⟨?_, ?_, ?_⟩
  · intro α _ o st mp fuel s h
    exact crawlLoop_card_le o st mp fuel s h
  · intro α _ o st mp fuel s h
    exact crawlLoop_stop o st mp fuel s h
  · intro N extra
    refine ⟨chain_crawl_visited N extra, ?_⟩
    rw [chain_crawl_visited N extra, Finset.card_range]

/-- Witness for C3 at concrete inputs. -/
theorem crawl_respects_page_budget_witness :
    (crawlLoop chainOracle 0 2 9 (crawlInit 0)).visited.card ≤ 2
    ∧ crawlLoop chainOracle 0 0 5 (crawlInit 0) = crawlInit 0
    ∧ (crawl chainOracle 0 3 (3 + 4)).visited.card = 3 :=
  ⟨crawl_respects_page_budget.1 Nat chainOracle 0 2 9 (crawlInit 0) (by decide),
   crawl_respects_page_budget.2.1 Nat chainOracle 0 0 5 (crawlInit 0) (by decide),
   (crawl_respects_page_budget.2.2 3 4).2⟩

/-- C4: no URL is fetched-and-stored twice in one crawl — the list of
successfully fetched URLs has no duplicates; a dequeued URL already in
the visited set is discarded without any fetcher invocation; a URL
passing `_should_crawl` (hence enqueued) is never already visited; and a
page whose content links only to itself (`k` copies) is visited exactly
once, with exactly one fetcher invocation. -/
theorem crawl_no_double_fetch_store :
    (∀ (α : Type) [DecidableEq α] (o : CrawlOracle α) (st : α) (mp fuel : Nat),
        (successUrls (crawl o st mp fuel).fetchLog).Nodup)
    ∧ (∀ (α : Type) [DecidableEq α] (o : CrawlOracle α) (st : α) (mp f : Nat)
        (url : α) (rest : List α) (v : Finset α) (r : List (α × String))
        (l : List (α × Bool)), url ∈ v →
          crawlLoop o st mp (f + 1) ⟨url :: rest, v, r, l⟩ =
            if v.card < mp then crawlLoop o st mp f ⟨rest, v, r, l⟩
            else ⟨url :: rest, v, r, l⟩)
    ∧ (∀ (α : Type) [DecidableEq α] (o : CrawlOracle α) (st : α) (v : Finset α) (u : α),
        should_crawl o st v u = true → u ∉ v)
    ∧ (∀ k m fuel : Nat,
        (crawl (selfLoopOracle k) 0 (m + 1) (fuel + 1)).visited = {0}
        ∧ (crawl (selfLoopOracle k) 0 (m + 1) (fuel + 1)).visited.card = 1
        ∧ (crawl (selfLoopOracle k) 0 (m + 1) (fuel + 1)).fetchLog = [(0, true)]) := by
  refine ⟨?_, ?_, ?_, ?_⟩
  · intro α _ o st mp fuel
    exact (crawlLoop_success_inv o st mp fuel (crawlInit st) (by simp [crawlInit, successUrls])
      (by simp [crawlInit, successUrls])).1
  · intro α _ o st mp f url rest v r l hvis
    rw [crawlLoop_succ_cons]
    simp [hvis]
  · intro α _ o st v u h
    exact ((should_crawl_iff o st v u).mp h).1
  · intro k m fuel
    have hstep : crawl (selfLoopOracle k) 0 (m + 1) (fuel + 1) =
        crawlLoop (selfLoopOracle k) 0 (m + 1) fuel
          ⟨[], insert 0 ∅, [(0, "page")], [(0, true)]⟩ := by
      rw [crawl, show crawlInit 0 = (⟨[0], ∅, [], []⟩ : CrawlState Nat) from rfl,
        crawlLoop_succ_cons, if_pos (by simp), if_neg (by simp)]
      show crawlLoop (selfLoopOracle k) 0 (m + 1) fuel
          ⟨[] ++ ((List.replicate k 0).filter
              fun x => should_crawl (selfLoopOracle k) 0 (insert 0 ∅) x),
           insert 0 ∅, [] ++ [(0, "page")], [] ++ [(0, true)]⟩ = _
      have hfil : ((List.replicate k 0).filter
          fun x => should_crawl (selfLoopOracle k) 0 (insert 0 ∅) x) = [] := by
        rw [List.filter_eq_nil_iff]
        intro a ha
        have ha0 : a = 0 := List.eq_of_mem_replicate ha
        subst ha0
        rw [should_crawl_eq]
        simp
      rw [hfil]
      rfl
    rw [hstep, crawlLoop_nil _ _ _ _ _ rfl]
    exact ⟨by decide, by decide, rfl⟩

/-- Witness for C4 at concrete inputs. -/
theorem crawl_no_double_fetch_store_witness :
    (successUrls (crawl chainOracle 0 2 9).fetchLog).Nodup
    ∧ crawlLoop chainOracle 0 2 4 ⟨[5], {5}, [], []⟩ =
        (if ({5} : Finset Nat).card < 2 then crawlLoop chainOracle 0 2 3 ⟨[], {5}, [], []⟩
         else ⟨[5], {5}, [], []⟩)
    ∧ (7 : Nat) ∉ (∅ : Finset Nat)
    ∧ (crawl (selfLoopOracle 3) 0 (0 + 1) (9 + 1)).visited.card = 1 :=
  ⟨crawl_no_double_fetch_store.1 Nat chainOracle 0 2 9,
   crawl_no_double_fetch_store.2.1 Nat chainOracle 0 2 3 5 [] {5} [] [] (by decide),
   crawl_no_double_fetch_store.2.2.1 Nat chainOracle 0 ∅ 7 (by decide),
   (crawl_no_double_fetch_store.2.2.2 3 0 9).2.1⟩

/-- C5 counterexample: in the crawl over `retryOracle` — page 0 links to
pages 1 and 2, page 1's fetch always fails, page 2 links back to 1 —
URL 1 is handed to the fetcher twice (the full fetch log is
`[(0, ok), (1, fail), (2, ok), (1, fail)]`), so a URL whose fetch
returned Absent IS re-enqueued and re-fetched when rediscovered later in
the same crawl, contradicting the claim. -/
theorem crawl_retries_failed_url_counterexample :
    ((crawl retryOracle 0 10 10).fetchLog.map Prod.fst).count 1 = 2
    ∧ (crawl retryOracle 0 10 10).fetchLog = [(0, true), (1, false), (2, true), (1, false)]
    ∧ (1 : Nat) ∉ (crawl retryOracle 0 10 10).visited :=
  ⟨by decide, by decide, by decide⟩

/-- C5 (amended): a URL whose fetch returned Absent is not marked
visited — the visited set always equals the set of successfully fetched
URLs, so there is no success-independent "seen" marker — and such a URL,
when rediscovered later in the same crawl, passes `_should_crawl` again
and is re-enqueued and re-fetched, as the `retryOracle` run exhibits. -/
theorem crawl_failed_urls_are_retried :
    (∀ (α : Type) [DecidableEq α] (o : CrawlOracle α) (st : α) (mp fuel : Nat),
        (crawl o st mp fuel).visited =
          (successUrls (crawl o st mp fuel).fetchLog).toFinset)
    ∧ (∀ (α : Type) [DecidableEq α] (o : CrawlOracle α) (st : α) (v : Finset α) (u : α),
        u ∉ v → o.netlocOf u = o.netlocOf st → should_crawl o st v u = true)
    ∧ ((crawl retryOracle 0 10 10).fetchLog.map Prod.fst).count 1 = 2 := by
  refine ⟨?_, ?_, by decide⟩
  · intro α _ o st mp fuel
    exact crawlLoop_visited_eq_success o st mp fuel (crawlInit st)
      (by simp [crawlInit, successUrls])
  · intro α _ o st v u h1 h2
    exact (should_crawl_iff o st v u).mpr ⟨h1, h2⟩

/-- Witness for the amended C5 at concrete inputs. -/
theorem crawl_failed_urls_are_retried_witness :
    should_crawl chainOracle 0 ({5} : Finset Nat) 7 = true :=
  crawl_failed_urls_are_retried.2.1 Nat chainOracle 0 {5} 7 (by decide) (by decide)

/-- C6 counterexample: in the `portOracle` crawl the start page's only
discovered link `http://example.com:80/a` has the same host component
(`example.com`, per `urlparse(...).hostname`) as the start URL
`http://example.com/` and is not visited, yet `_should_crawl` rejects it
and it is never enqueued or fetched — the code compares the full netloc
`example.com:80`, port included, so "host component exactly equals" is
not sufficient for enqueueing. -/
theorem should_crawl_port_counterexample :
    hostnameOf (urlNetloc (chars "http://example.com:80/a")) = some (chars "example.com")
    ∧ hostnameOf (urlNetloc (chars "http://example.com/")) = some (chars "example.com")
    ∧ portOracle.extractLinks "page1" (chars "http://example.com/")
        = [chars "http://example.com:80/a"]
    ∧ chars "http://example.com:80/a" ∉ ({chars "http://example.com/"} : Finset (List Char))
    ∧ should_crawl portOracle (chars "http://example.com/")
        {chars "http://example.com/"} (chars "http://example.com:80/a") = false
    ∧ (crawl portOracle (chars "http://example.com/") 10 10).fetchLog.map Prod.fst
        = [chars "http://example.com/"]
    ∧ (crawl portOracle (chars "http://example.com/") 10 10).frontier = [] :=
  ⟨by decide, by decide, by decide, by decide, by decide, by decide, by decide⟩

/-- C6 (amended): a discovered link is enqueued by the crawler iff it is
not already visited and its network-location component
(`urlparse(url).netloc`: host and port) exactly equals the start URL's
netloc — still no sub-domain matching and no scheme comparison, but the
comparison covers host AND port, not the host alone. -/
theorem crawl_enqueue_iff_netloc :
    (∀ (α : Type) [DecidableEq α] (o : CrawlOracle α) (st : α) (v : Finset α) (u : α),
        should_crawl o st v u = true ↔ u ∉ v ∧ o.netlocOf u = o.netlocOf st)
    ∧ (∀ (α : Type) [DecidableEq α] (o : CrawlOracle α) (st : α) (mp f : Nat)
        (url : α) (rest : List α) (v : Finset α) (r : List (α × String))
        (l : List (α × Bool)) (html : String),
        v.card < mp → url ∉ v → o.fetchUrl url = some html →
        crawlLoop o st mp (f + 1) ⟨url :: rest, v, r, l⟩ =
          crawlLoop o st mp f
            ⟨rest ++ (o.extractLinks html url).filter
                (fun x => decide (x ∉ insert url v) &&
                  decide (o.netlocOf x = o.netlocOf st)),
             insert url v, r ++ [(url, html)], l ++ [(url, true)]⟩) := by
  constructor
  · intro α _ o st v u
    exact should_crawl_iff o st v u
  · intro α _ o st mp f url rest v r l html hcard hvis hf
    exact crawlLoop_fetch_step o st mp f url rest v r l html hcard hvis hf

/-- Witness for the amended C6 at concrete inputs. -/
theorem crawl_enqueue_iff_netloc_witness :
    crawlLoop chainOracle 0 5 (2 + 1) ⟨[0], ∅, [], []⟩ =
      crawlLoop chainOracle 0 5 2
        ⟨[] ++ (chainOracle.extractLinks "page" 0).filter
            (fun x => decide (x ∉ insert 0 (∅ : Finset Nat)) &&
              decide (chainOracle.netlocOf x = chainOracle.netlocOf 0)),
         insert 0 ∅, [] ++ [(0, "page")], [] ++ [(0, true)]⟩ :=
  crawl_enqueue_iff_netloc.2 Nat chainOracle 0 5 2 0 [] ∅ [] [] "page"
    (by decide) (by decide) (by decide)

/-! ## Robots-checker lemmas -/

section RobotsLemmas

variable {R : Type} (readR : List Char → Except String R)
variable (evalR : R → List Char → List Char → Bool)

theorem findCache_nil (d : List Char) : findCache ([] : List (List Char × R)) d = none := rfl

theorem findCache_cons (k : List Char) (v : R) (t : List (List Char × R)) (d : List Char) :
    findCache ((k, v) :: t) d = if k = d then some v else findCache t d := rfl

theorem findCache_append_some (c1 c2 : List (List Char × R)) (d : List Char) (r : R)
    (h : findCache c1 d = some r) : findCache (c1 ++ c2) d = some r := by
  induction c1 with
  | nil => rw [findCache_nil] at h; cases h
  | cons kv t ih =>
    obtain ⟨k, v⟩ := kv
    rw [List.cons_append, findCache_cons]
    rw [findCache_cons] at h
    by_cases hk : k = d
    · rwa [if_pos hk] at h ⊢
    · rw [if_neg hk] at h ⊢
      exact ih h

theorem findCache_none_iff (c : List (List Char × R)) (d : List Char) :
    findCache c d = none ↔ d ∉ c.map Prod.fst := by
  induction c with
  | nil => simp [findCache_nil]
  | cons kv t ih =>
    obtain ⟨k, v⟩ := kv
    rw [findCache_cons]
    by_cases hk : k = d
    · rw [if_pos hk]
      constructor
      · intro hsome; cases hsome
      · intro hnot
        exfalso
        apply hnot
        simp only [List.map_cons, List.mem_cons]
        exact Or.inl hk.symm
    · rw [if_neg hk]
      simp only [List.map_cons, List.mem_cons]
      rw [ih]
      constructor
      · intro hnot hor
        rcases hor with h | h
        · exact hk h.symm
        · exact hnot h
      · intro hnot h
        exact hnot (Or.inr h)

theorem can_fetch_parse_error (st : RobotsState R) (ua url : List Char) (e : String)
    (hp : urlparseCore url [] = .error e) :
    can_fetch readR evalR st ua url = .error e := by
  simp only [can_fetch, hp]

theorem can_fetch_hit (st : RobotsState R) (ua url : List Char) (p : UrlParts) (rp : R)
    (hp : urlparseCore url [] = .ok p) (hc : findCache st.cache p.netloc = some rp) :
    can_fetch readR evalR st ua url = .ok (evalR rp ua url, st) := by
  simp only [can_fetch, hp, hc]

theorem can_fetch_miss_ok (st : RobotsState R) (ua url : List Char) (p : UrlParts) (rp : R)
    (hp : urlparseCore url [] = .ok p) (hc : findCache st.cache p.netloc = none)
    (hr : readR (robotsUrlOf p.scheme p.netloc) = .ok rp) :
    can_fetch readR evalR st ua url =
      .ok (evalR rp ua url,
        ⟨st.cache ++ [(p.netloc, rp)],
         st.trace ++ [(p.netloc, robotsUrlOf p.scheme p.netloc)]⟩) := by
  simp only [can_fetch, hp, hc, hr]

theorem can_fetch_miss_error (st : RobotsState R) (ua url : List Char) (p : UrlParts)
    (e : String) (hp : urlparseCore url [] = .ok p)
    (hc : findCache st.cache p.netloc = none)
    (hr : readR (robotsUrlOf p.scheme p.netloc) = .error e) :
    can_fetch readR evalR st ua url = .error e := by
  simp only [can_fetch, hp, hc, hr]

theorem can_fetch_step_inv (st : RobotsState R) (ua url : List Char) (b : Bool)
    (st2 : RobotsState R) (h : can_fetch readR evalR st ua url = .ok (b, st2))
    (h1 : st.trace.map Prod.fst = st.cache.map Prod.fst)
    (h2 : (st.cache.map Prod.fst).Nodup) :
    st2.trace.map Prod.fst = st2.cache.map Prod.fst ∧
      (st2.cache.map Prod.fst).Nodup ∧
      ∀ d r, findCache st.cache d = some r → findCache st2.cache d = some r := by
  cases hp : urlparseCore url [] with
  | error e =>
    rw [can_fetch_parse_error readR evalR st ua url e hp] at h
    cases h
  | ok p =>
    cases hc : findCache st.cache p.netloc with
    | some rp =>
      rw [can_fetch_hit readR evalR st ua url p rp hp hc] at h
      have hst : st2 = st := by
        injection h with h3
        injection h3 with h4 h5
        exact h5.symm
      subst hst
      exact ⟨h1, h2, fun d r hd => hd⟩
    | none =>
      cases hr : readR (robotsUrlOf p.scheme p.netloc) with
      | error e =>
        rw [can_fetch_miss_error readR evalR st ua url p e hp hc hr] at h
        cases h
      | ok rp =>
        rw [can_fetch_miss_ok readR evalR st ua url p rp hp hc hr] at h
        have hst2 : st2 = ⟨st.cache ++ [(p.netloc, rp)],
            st.trace ++ [(p.netloc, robotsUrlOf p.scheme p.netloc)]⟩ := by
          injection h with h3
          injection h3 with h4 h5
          exact h5.symm
        subst hst2
        refine ⟨by rw [List.map_append, List.map_append, h1]; rfl, ?_, ?_⟩
        · have hd : p.netloc ∉ st.cache.map Prod.fst := (findCache_none_iff _ _).mp hc
          simp only [List.map_append, List.map_cons, List.map_nil]
          refine List.nodup_append.mpr ⟨h2, List.nodup_singleton _, ?_⟩
          intro x hx hmem
          rw [List.mem_singleton] at hmem
          subst hmem
          exact hd hx
        · intro d r hd
          exact findCache_append_some _ _ d r hd

theorem can_fetch_cache_mono (st : RobotsState R) (ua url : List Char) (b : Bool)
    (st2 : RobotsState R) (h : can_fetch readR evalR st ua url = .ok (b, st2)) :
    ∀ d r, findCache st.cache d = some r → findCache st2.cache d = some r := by
  intro d r hd
  cases hp : urlparseCore url [] with
  | error e =>
    rw [can_fetch_parse_error readR evalR st ua url e hp] at h
    cases h
  | ok p =>
    cases hc : findCache st.cache p.netloc with
    | some rp =>
      rw [can_fetch_hit readR evalR st ua url p rp hp hc] at h
      have hst2 : st2 = st := by
        injection h with h3
        injection h3 with h4 h5
        exact h5.symm
      rw [hst2]; exact hd
    | none =>
      cases hr : readR (robotsUrlOf p.scheme p.netloc) with
      | error e =>
        rw [can_fetch_miss_error readR evalR st ua url p e hp hc hr] at h
        cases h
      | ok rp =>
        rw [can_fetch_miss_ok readR evalR st ua url p rp hp hc hr] at h
        have hst2 : st2 = ⟨st.cache ++ [(p.netloc, rp)],
            st.trace ++ [(p.netloc, robotsUrlOf p.scheme p.netloc)]⟩ := by
          injection h with h3
          injection h3 with h4 h5
          exact h5.symm
        rw [hst2]
        exact findCache_append_some _ _ d r hd

theorem runQueries_cache_mono :
    ∀ (qs : List (List Char × List Char)) (st : RobotsState R) (d : List Char) (r : R),
      findCache st.cache d = some r →
      findCache (runQueries readR evalR st qs).2.cache d = some r := by
  intro qs
  induction qs with
  | nil => intro st d r hd; exact hd
  | cons q qs ih =>
    intro st d r hd
    obtain ⟨ua, url⟩ := q
    cases hcf : can_fetch readR evalR st ua url with
    | error e =>
      simp only [runQueries, hcf]
      exact ih st d r hd
    | ok bst2 =>
      obtain ⟨b, st2⟩ := bst2
      simp only [runQueries, hcf]
      exact ih st2 d r (can_fetch_cache_mono readR evalR st ua url b st2 hcf d r hd)

theorem runQueries_inv :
    ∀ (qs : List (List Char × List Char)) (st : RobotsState R),
      st.trace.map Prod.fst = st.cache.map Prod.fst →
      (st.cache.map Prod.fst).Nodup →
      ((runQueries readR evalR st qs).2.trace.map Prod.fst =
          (runQueries readR evalR st qs).2.cache.map Prod.fst)
      ∧ ((runQueries readR evalR st qs).2.cache.map Prod.fst).Nodup
      ∧ ∀ d r, findCache st.cache d = some r →
          findCache (runQueries readR evalR st qs).2.cache d = some r := by
  intro qs
  induction qs with
  | nil => intro st h1 h2; exact ⟨h1, h2, fun d r hd => hd⟩
  | cons q qs ih =>
    intro st h1 h2
    obtain ⟨ua, url⟩ := q
    cases hcf : can_fetch readR evalR st ua url with
    | error e =>
      simp only [runQueries, hcf]
      exact ih st h1 h2
    | ok bst2 =>
      obtain ⟨b, st2⟩ := bst2
      simp only [runQueries, hcf]
      have hstep := can_fetch_step_inv readR evalR st ua url b st2 hcf h1 h2
      have hrest := ih st2 hstep.1 hstep.2.1
      exact ⟨hrest.1, hrest.2.1, fun d r hd => hrest.2.2 d r (hstep.2.2 d r hd)⟩

theorem runQueries_two_same_netloc (ua1 ua2 u1 u2 : List Char) (p1 p2 : UrlParts) (r : R)
    (h1 : urlparseCore u1 [] = .ok p1) (h2 : urlparseCore u2 [] = .ok p2)
    (hn : p1.netloc = p2.netloc)
    (hr : readR (robotsUrlOf p1.scheme p1.netloc) = .ok r) :
    runQueries readR evalR robotsInit [(ua1, u1), (ua2, u2)] =
      ([.ok (evalR r ua1 u1), .ok (evalR r ua2 u2)],
       ⟨[(p1.netloc, r)], [(p1.netloc, robotsUrlOf p1.scheme p1.netloc)]⟩) := by
  have hc1 : can_fetch readR evalR robotsInit ua1 u1 =
      .ok (evalR r ua1 u1,
        ⟨[(p1.netloc, r)], [(p1.netloc, robotsUrlOf p1.scheme p1.netloc)]⟩) := by
    simpa [robotsInit] using
      can_fetch_miss_ok readR evalR robotsInit ua1 u1 p1 r h1 rfl hr
  have hc2 : can_fetch readR evalR
      ⟨[(p1.netloc, r)], [(p1.netloc, robotsUrlOf p1.scheme p1.netloc)]⟩ ua2 u2 =
      .ok (evalR r ua2 u2,
        ⟨[(p1.netloc, r)], [(p1.netloc, robotsUrlOf p1.scheme p1.netloc)]⟩) := by
    refine can_fetch_hit readR evalR _ ua2 u2 p2 r h2 ?_
    simp [findCache, hn]
  simp only [runQueries, hc1, hc2]

theorem runQueries_two_diff_netloc (ua1 ua2 u1 u2 : List Char) (p1 p2 : UrlParts)
    (r1 r2 : R)
    (h1 : urlparseCore u1 [] = .ok p1) (h2 : urlparseCore u2 [] = .ok p2)
    (hn : p1.netloc ≠ p2.netloc)
    (hr1 : readR (robotsUrlOf p1.scheme p1.netloc) = .ok r1)
    (hr2 : readR (robotsUrlOf p2.scheme p2.netloc) = .ok r2) :
    runQueries readR evalR robotsInit [(ua1, u1), (ua2, u2)] =
      ([.ok (evalR r1 ua1 u1), .ok (evalR r2 ua2 u2)],
       ⟨[(p1.netloc, r1), (p2.netloc, r2)],
        [(p1.netloc, robotsUrlOf p1.scheme p1.netloc),
         (p2.netloc, robotsUrlOf p2.scheme p2.netloc)]⟩) := by
  have hc1 : can_fetch readR evalR robotsInit ua1 u1 =
      .ok (evalR r1 ua1 u1,
        ⟨[(p1.netloc, r1)], [(p1.netloc, robotsUrlOf p1.scheme p1.netloc)]⟩) := by
    simpa [robotsInit] using
      can_fetch_miss_ok readR evalR robotsInit ua1 u1 p1 r1 h1 rfl hr1
  have hc2 : can_fetch readR evalR
      ⟨[(p1.netloc, r1)], [(p1.netloc, robotsUrlOf p1.scheme p1.netloc)]⟩ ua2 u2 =
      .ok (evalR r2 ua2 u2,
        ⟨[(p1.netloc, r1), (p2.netloc, r2)],
         [(p1.netloc, robotsUrlOf p1.scheme p1.netloc),
          (p2.netloc, robotsUrlOf p2.scheme p2.netloc)]⟩) := by
    have := can_fetch_miss_ok readR evalR
      ⟨[(p1.netloc, r1)], [(p1.netloc, robotsUrlOf p1.scheme p1.netloc)]⟩ ua2 u2 p2 r2 h2
      (by simp [findCache, hn]) hr2
    simpa using this
  simp only [runQueries, hc1, hc2]

end RobotsLemmas

/-- C7: over any sequence of `can_fetch` calls on one checker instance,
robots.txt is fetched at most once per domain (the fetch-trace domains
are duplicate-free); a cache entry, once created, is only read and never
replaced across later calls; two queries against the same domain trigger
exactly one robots fetch; and a query against a second domain triggers a
second, independent fetch. -/
theorem robots_fetch_at_most_once_per_domain :
    (∀ (R : Type) (readR : List Char → Except String R)
        (evalR : R → List Char → List Char → Bool) (qs : List (List Char × List Char)),
        (((runQueries readR evalR robotsInit qs).2.trace.map Prod.fst).Nodup))
    ∧ (∀ (R : Type) (readR : List Char → Except String R)
        (evalR : R → List Char → List Char → Bool) (st : RobotsState R)
        (qs : List (List Char × List Char)) (d : List Char) (r : R),
        findCache st.cache d = some r →
        findCache ((runQueries readR evalR st qs).2).cache d = some r)
    ∧ (∀ (R : Type) (readR : List Char → Except String R)
        (evalR : R → List Char → List Char → Bool) (ua1 ua2 u1 u2 : List Char)
        (p1 p2 : UrlParts) (r : R),
        urlparseCore u1 [] = .ok p1 → urlparseCore u2 [] = .ok p2 →
        p1.netloc = p2.netloc →
        readR (robotsUrlOf p1.scheme p1.netloc) = .ok r →
        ((runQueries readR evalR robotsInit [(ua1, u1), (ua2, u2)]).2).trace.length = 1)

    ∧ (∀ (R : Type) (readR : List Char → Except String R)
        (evalR : R → List Char → List Char → Bool) (ua1 ua2 u1 u2 : List Char)
        (p1 p2 : UrlParts) (r1 r2 : R),
        urlparseCore u1 [] = .ok p1 → urlparseCore u2 [] = .ok p2 →
        p1.netloc ≠ p2.netloc →
        readR (robotsUrlOf p1.scheme p1.netloc) = .ok r1 →
        readR (robotsUrlOf p2.scheme p2.netloc) = .ok r2 →
        ((runQueries readR evalR robotsInit [(ua1, u1), (ua2, u2)]).2).trace.length = 2) := by
  refine ⟨?_, ?_, ?_, ?_⟩
  · intro R readR evalR qs
    have := runQueries_inv readR evalR qs robotsInit (by simp [robotsInit]) (by simp [robotsInit])
    rw [this.1]
    exact this.2.1
  · intro R readR evalR st qs d r hd
    exact runQueries_cache_mono readR evalR qs st d r hd
  · intro R readR evalR ua1 ua2 u1 u2 p1 p2 r h1 h2 hn hr
    rw [runQueries_two_same_netloc readR evalR ua1 ua2 u1 u2 p1 p2 r h1 h2 hn hr]
    rfl
  · intro R readR evalR ua1 ua2 u1 u2 p1 p2 r1 r2 h1 h2 hn hr1 hr2
    rw [runQueries_two_diff_netloc readR evalR ua1 ua2 u1 u2 p1 p2 r1 r2 h1 h2 hn hr1 hr2]
    rfl

/-- Witness for C7 at concrete inputs. -/
theorem robots_fetch_at_most_once_per_domain_witness :
    findCache ((runQueries (fun _ => Except.ok true) (fun r _ _ => r)
        ⟨[(chars "h", true)], []⟩ [(chars "A", chars "http://h/x")]).2).cache (chars "h")
      = some true
    ∧ ((runQueries (fun _ => Except.ok true) (fun r _ _ => r) robotsInit
        [(chars "A", chars "http://h/x"), (chars "B", chars "https://h/y")]).2).trace.length
      = 1
    ∧ ((runQueries (fun _ => Except.ok true) (fun r _ _ => r) robotsInit
        [(chars "A", chars "http://h/x"), (chars "B", chars "http://k/z")]).2).trace.length
      = 2 :=
  ⟨robots_fetch_at_most_once_per_domain.2.1 Bool (fun _ => Except.ok true) (fun r _ _ => r)
      ⟨[(chars "h", true)], []⟩ [(chars "A", chars "http://h/x")] (chars "h") true (by rfl),
   robots_fetch_at_most_once_per_domain.2.2.1 Bool (fun _ => Except.ok true) (fun r _ _ => r)
      (chars "A") (chars "B") (chars "http://h/x") (chars "https://h/y")
      ⟨chars "http", chars "h", chars "/x", [], [], []⟩
      ⟨chars "https", chars "h", chars "/y", [], [], []⟩ true
      (by rfl) (by rfl) (by rfl) (by rfl),
   robots_fetch_at_most_once_per_domain.2.2.2 Bool (fun _ => Except.ok true) (fun r _ _ => r)
      (chars "A") (chars "B") (chars "http://h/x") (chars "http://k/z")
      ⟨chars "http", chars "h", chars "/x", [], [], []⟩
      ⟨chars "http", chars "k", chars "/z", [], [], []⟩ true true
      (by rfl) (by rfl) (by decide) (by rfl) (by rfl)⟩

/-- C10: the robots cache is keyed by the URL's network-location
(host and port) alone, ignoring scheme: after a `can_fetch` query for a
URL on some netloc, a later query for a same-netloc URL (any scheme,
e.g. `https` after `http`) performs no second robots.txt fetch — the
trace still holds exactly the single robots URL built from the FIRST
query's scheme — and both verdicts are evaluated against the ruleset
fetched from that first-scheme robots URL. -/
theorem robots_cache_scheme_blind :
    ∀ (R : Type) (readR : List Char → Except String R)
      (evalR : R → List Char → List Char → Bool)
      (ua1 ua2 u1 u2 : List Char) (p1 p2 : UrlParts) (r : R),
      urlparseCore u1 [] = .ok p1 → urlparseCore u2 [] = .ok p2 →
      p1.netloc = p2.netloc →
      readR (robotsUrlOf p1.scheme p1.netloc) = .ok r →
      (runQueries readR evalR robotsInit [(ua1, u1), (ua2, u2)]).2.trace =
          [(p1.netloc, robotsUrlOf p1.scheme p1.netloc)]
      ∧ (runQueries readR evalR robotsInit [(ua1, u1), (ua2, u2)]).1 =
          [.ok (evalR r ua1 u1), .ok (evalR r ua2 u2)] := by
  intro R readR evalR ua1 ua2 u1 u2 p1 p2 r h1 h2 hn hr
  rw [runQueries_two_same_netloc readR evalR ua1 ua2 u1 u2 p1 p2 r h1 h2 hn hr]
  exact ⟨rfl, rfl⟩

/-- C1 counterexample: with a robots oracle whose robots.txt read raises
(e.g. a network failure inside `rp.read()`), `AsyncFetcher.fetch` of a
safe, parseable URL propagates that exception to its caller instead of
returning Absent — the robots lookup happens before the `try` block, so
not every per-page failure is converted to `None`. -/
theorem fetch_propagates_robots_error_counterexample :
    fetch (fun _ => (Except.error "network error" : Except String Unit))
        (fun _ _ _ => true) (fun _ => Attempt.response 200 "body") robotsInit
        "RespectfulBot" "http://example.com/x"
      = Except.error "network error"
    ∧ is_safe_url "http://example.com/x" = true :=
  ⟨by rfl, by rfl⟩

/-- C1 (amended): `AsyncFetcher.fetch` raises if and only if the URL
passes the SSRF check and the robots lookup itself raises; every other
per-page failure — unsafe URL, robots disallowed, exhausted retries,
non-200 status, or any other error inside the retried GET — is signaled
only by returning Absent (`none`). -/
theorem fetch_error_iff_robots_error :
    ∀ (R : Type) (readR : List Char → Except String R)
      (evalR : R → List Char → List Char → Bool) (http : Nat → Attempt)
      (st : RobotsState R) (ua url : String) (e : String),
      fetch readR evalR http st ua url = .error e ↔
        is_safe_url url = true ∧ can_fetch readR evalR st ua.data url.data = .error e := by
  intro R readR evalR http st ua url e
  unfold fetch
  by_cases hs : is_safe_url url = true
  · rw [if_neg (not_not_intro hs)]
    cases hc : can_fetch readR evalR st ua.data url.data with
    | error e0 =>
      show Except.error e0 = Except.error e ↔ _
      constructor
      · intro h
        refine ⟨hs, ?_⟩
        injection h with he
        rw [he]
      · intro hpair
        injection hpair.2 with he
        rw [he]
    | ok bst =>
      obtain ⟨allowed, st2⟩ := bst
      show (if ¬ allowed = true
          then (Except.ok (none, st2) : Except String (Option String × RobotsState R))
          else match fetch_with_retry http with
            | .error _ => .ok (none, st2)
            | .ok r => .ok (r, st2)) = Except.error e ↔ _
      have hne : (if ¬ allowed = true
          then (Except.ok (none, st2) : Except String (Option String × RobotsState R))
          else match fetch_with_retry http with
            | .error _ => .ok (none, st2)
            | .ok r => .ok (r, st2)) ≠ .error e := by
        by_cases ha : allowed = true
        · rw [if_neg (not_not_intro ha)]
          cases fetch_with_retry http with
          | error e2 => intro h; cases h
          | ok r => intro h; cases h
        · rw [if_pos ha]
          intro h; cases h
      constructor
      · intro h; exact absurd h hne
      · intro hpair; exact Except.noConfusion hpair.2
  · rw [if_pos hs]
    constructor
    · intro h; cases h
    · intro hpair; exact absurd hpair.1 hs

/-! ## Rate-limiter lemmas -/

theorem acquire_fst (delay last now : ℚ) :
    (acquire delay last now).1 =
      if now - last < delay then delay - (now - last) else 0 := by
  unfold acquire
  split_ifs <;> rfl

theorem acquire_snd (delay last now : ℚ) :
    (acquire delay last now).2 =
      if now - last < delay then now + (delay - (now - last)) else now := by
  unfold acquire
  split_ifs <;> rfl

theorem acquireGrants_nil (delay last : ℚ) : acquireGrants delay last [] = [] := rfl

theorem acquireGrants_cons (delay last a : ℚ) (as : List ℚ) :
    acquireGrants delay last (a :: as) =
      (acquire delay last a).2 :: acquireGrants delay (acquire delay last a).2 as := rfl

theorem acquireWaits_nil (delay last : ℚ) : acquireWaits delay last [] = [] := rfl

theorem acquireWaits_cons (delay last a : ℚ) (as : List ℚ) :
    acquireWaits delay last (a :: as) =
      (acquire delay last a).1 :: acquireWaits delay (acquire delay last a).2 as := rfl

theorem acquire_grant_ge (delay last now : ℚ) (h : last ≤ now) :
    last + delay ≤ (acquire delay last now).2 := by
  rw [acquire_snd]
  split_ifs with hc
  · linarith
  · linarith

theorem acquire_wait_zero (last now : ℚ) (h : last ≤ now) :
    (acquire 0 last now).1 = 0 := by
  rw [acquire_fst, if_neg (by linarith)]

theorem acquireGrants_chain (delay : ℚ) :
    ∀ (as : List ℚ) (last : ℚ), SeqValid delay last as →
      List.Chain' (fun g1 g2 => g1 + delay ≤ g2) (acquireGrants delay last as) := by
  intro as
  induction as with
  | nil => intro last _; rw [acquireGrants_nil]; exact List.chain'_nil
  | cons a as ih =>
    intro last h
    obtain ⟨h1, h2⟩ := h
    rw [acquireGrants_cons]
    cases as with
    | nil => rw [acquireGrants_nil]; exact List.chain'_singleton _
    | cons a2 as2 =>
      have hrec := ih (acquire delay last a).2 h2
      rw [acquireGrants_cons] at hrec
      rw [acquireGrants_cons, List.chain'_cons]
      obtain ⟨h21, h22⟩ := h2
      exact ⟨acquire_grant_ge delay _ a2 h21, hrec⟩

theorem acquireWaits_all_zero :
    ∀ (as : List ℚ) (last : ℚ), SeqValid 0 last as →
      ∀ w ∈ acquireWaits 0 last as, w = 0 := by
  intro as
  induction as with
  | nil => intro last _ w hw; rw [acquireWaits_nil] at hw; cases hw
  | cons a as ih =>
    intro last h w hw
    obtain ⟨h1, h2⟩ := h
    rw [acquireWaits_cons] at hw
    rcases List.mem_cons.mp hw with hw1 | hw2
    · exact hw1.trans (acquire_wait_zero last a h1)
    · exact ih _ h2 w hw2

/-- C9: in the idealized-time model of `RateLimiter.acquire` — entry
clock values threaded through the lock-serialized call sequence, exact
sleeps — the grant moments of any sequence of calls on one instance are
spaced at least `delay` apart (consecutive grants `g1, g2` satisfy
`g1 + delay ≤ g2`); and with `delay = 0` no call ever sleeps (every
computed wait is 0). -/
theorem rate_limiter_min_spacing :
    (∀ (delay last : ℚ) (as : List ℚ), SeqValid delay last as →
        List.Chain' (fun g1 g2 => g1 + delay ≤ g2) (acquireGrants delay last as))
    ∧ (∀ (last : ℚ) (as : List ℚ), SeqValid 0 last as →
        ∀ w ∈ acquireWaits 0 last as, w = 0) :=
  ⟨fun delay _ as h => acquireGrants_chain delay as _ h,
   fun _ as h => acquireWaits_all_zero as _ h⟩

/-- Witness for C9 at concrete inputs: delay 2 with entries 0 and 2;
delay 0 with entries 0 and 1. -/
theorem rate_limiter_min_spacing_witness :
    List.Chain' (fun g1 g2 => g1 + 2 ≤ g2) (acquireGrants 2 0 [0, 2])
    ∧ ∀ w ∈ acquireWaits 0 0 [0, 1], w = 0 :=
  ⟨rate_limiter_min_spacing.1 2 0 [0, 2]
      (by refine ⟨by norm_num, ?_, trivial⟩; rw [acquire_snd]; norm_num),
   rate_limiter_min_spacing.2 0 [0, 1]
      (by refine ⟨by norm_num, ?_, trivial⟩; rw [acquire_snd]; norm_num)⟩

/-! ## The safety characterization (C2) -/

/-- C2 counterexample: `http://192.0.2.1` parses fine; its hostname is
the literal IP 192.0.2.1 (TEST-NET-1), which is not a localhost name,
not loopback, not RFC 1918 private, and not link-local — so the claim's
"true otherwise" requires `is_safe_url` to return true — yet the code
returns false, because Python's `is_private` also covers 192.0.2.0/24
and other special-purpose ranges beyond RFC 1918. -/
theorem is_safe_url_blocks_beyond_claim_counterexample :
    is_safe_url "http://192.0.2.1" = false
    ∧ urlparseCore (chars "http://192.0.2.1") []
        = .ok ⟨chars "http", chars "192.0.2.1", [], [], [], []⟩
    ∧ hostnameOf (chars "192.0.2.1") = some (chars "192.0.2.1")
    ∧ pyLower (chars "192.0.2.1") ≠ chars "localhost"
    ∧ pyLower (chars "192.0.2.1") ≠ chars "localhost.localdomain"
    ∧ ip_address (chars "192.0.2.1") = some (PyIP.v4 3221225985)
    ∧ ipIsLoopback (PyIP.v4 3221225985) = false
    ∧ isRFC1918 (PyIP.v4 3221225985) = false
    ∧ ipIsLinkLocal (PyIP.v4 3221225985) = false :=
  ⟨by decide, by rfl, by decide, by decide, by decide, by rfl, by decide,
   by decide, by decide⟩

/-- C2 (amended): `is_safe_url` returns false exactly when URL parsing
fails (fail-closed), when the hostname case-insensitively equals
`localhost`/`localhost.localdomain`, or when the hostname is a literal
IP address that is loopback, private in Python's `ipaddress.is_private`
sense (RFC 1918 plus further IANA special-purpose ranges), or link-local
(including 169.254.169.254, whose dedicated check is subsumed); and true
otherwise — in particular for the public literal IP 8.8.8.8 and for
non-IP hostnames such as example.com, which are not DNS-resolved. -/
theorem is_safe_url_characterization :
    (∀ url : String, is_safe_url url = !unsafeSpec url)
    ∧ is_safe_url "http://localhost:8000" = false
    ∧ is_safe_url "http://127.0.0.1" = false
    ∧ is_safe_url "http://169.254.169.254" = false
    ∧ is_safe_url "http://10.0.0.1" = false
    ∧ is_safe_url "http://172.16.0.1" = false
    ∧ is_safe_url "http://192.168.1.1" = false
    ∧ is_safe_url "https://example.com" = true
    ∧ is_safe_url "http://8.8.8.8" = true := by
  refine ⟨?_, by decide, by decide, by decide, by decide, by decide, by decide,
    by decide, by decide⟩
  intro url
  rcases hparse : urlparseCore url.data [] with e | p
  · simp only [is_safe_url, unsafeSpec, hparse, Bool.not_true]
  · simp only [is_safe_url, unsafeSpec, hparse]
    by_cases hl : pyLower (match hostnameOf p.netloc with
        | some h => h
        | none => (pySplit ':' p.netloc).headD []) = chars "localhost" ∨
        pyLower (match hostnameOf p.netloc with
        | some h => h
        | none => (pySplit ':' p.netloc).headD []) = chars "localhost.localdomain"
    · simp only [if_pos hl, Bool.not_true]
    · simp only [if_neg hl]
      rcases hip : ip_address (match hostnameOf p.netloc with
          | some h => h
          | none => (pySplit ':' p.netloc).headD []) with _ | ip
      · simp only [hip, Bool.not_false]
      · simp only [hip]
        cases h1 : ipIsLoopback ip with
        | true => simp [h1]
        | false =>
          cases h2 : ipIsPrivate ip with
          | true => simp [h1, h2]
          | false =>
            cases h3 : ipIsLinkLocal ip with
            | true => simp [h1, h2, h3]
            | false =>
              by_cases haws : ip = awsMetadataIP
              · exfalso
                rw [haws] at h3
                exact absurd h3 (by decide)
              · simp [h1, h2, h3, haws]

/-- Witness for C10 at concrete inputs: `http://h/x` then `https://h/y`. -/
theorem robots_cache_scheme_blind_witness :
    (runQueries (fun _ => Except.ok true) (fun r _ _ => r) robotsInit
        [(chars "A", chars "http://h/x"), (chars "B", chars "https://h/y")]).2.trace =
      [(chars "h", chars "http://h/robots.txt")]
    ∧ (runQueries (fun _ => Except.ok true) (fun r _ _ => r) robotsInit
        [(chars "A", chars "http://h/x"), (chars "B", chars "https://h/y")]).1 =
      [Except.ok true, Except.ok true] :=
  robots_cache_scheme_blind Bool (fun _ => Except.ok true) (fun r _ _ => r)
    (chars "A") (chars "B") (chars "http://h/x") (chars "https://h/y")
    ⟨chars "http", chars "h", chars "/x", [], [], []⟩
    ⟨chars "https", chars "h", chars "/y", [], [], []⟩ true
    (by rfl) (by rfl) (by rfl) (by rfl)

/-! ## Character-level lemmas for the normalization analysis -/

theorem toNat_ofNat_valid (n : Nat) (h : n.isValidChar) : (Char.ofNat n).toNat = n := by
  unfold Char.ofNat
  rw [dif_pos h]
  unfold Char.ofNatAux Char.toNat
  simp [UInt32.toNat, BitVec.toNat_ofNatLt]

theorem char_eq_of_toNat_eq (a b : Char) (h : a.toNat = b.toNat) : a = b :=
  Char.eq_of_val_eq (UInt32.ext h)

theorem char_eq_iff_toNat (a b : Char) : a = b ↔ a.toNat = b.toNat :=
  ⟨fun h => h ▸ rfl, char_eq_of_toNat_eq a b⟩

theorem pyLowerChar_toNat (c : Char) :
    (pyLowerChar c).toNat =
      if 65 ≤ c.toNat ∧ c.toNat ≤ 90 then c.toNat + 32 else c.toNat := by
  unfold pyLowerChar
  split_ifs with h
  · exact toNat_ofNat_valid _ (Or.inl (by omega))
  · rfl

theorem pyLowerChar_of_not_upper (c : Char) (h : ¬(65 ≤ c.toNat ∧ c.toNat ≤ 90)) :
    pyLowerChar c = c := by
  unfold pyLowerChar
  rw [if_neg h]

theorem pyLowerChar_idem (c : Char) : pyLowerChar (pyLowerChar c) = pyLowerChar c := by
  apply pyLowerChar_of_not_upper
  rw [pyLowerChar_toNat]
  split_ifs with h <;> omega

theorem pyLower_idem (l : List Char) : pyLower (pyLower l) = pyLower l := by
  unfold pyLower
  rw [List.map_map]
  exact List.map_congr_left (fun c _ => pyLowerChar_idem c)

theorem pyLower_eq_nil_iff (l : List Char) : pyLower l = [] ↔ l = [] := by
  unfold pyLower
  exact List.map_eq_nil_iff

theorem pyLowerChar_eq_punct_iff (c d : Char) (hd : PunctChar d) :
    pyLowerChar c = d ↔ c = d := by
  unfold PunctChar at hd
  rw [char_eq_iff_toNat, char_eq_iff_toNat, pyLowerChar_toNat]
  split_ifs with h <;> omega

theorem mem_pyLower_punct (l : List Char) (d : Char) (hd : PunctChar d) :
    d ∈ pyLower l ↔ d ∈ l := by
  unfold pyLower
  rw [List.mem_map]
  constructor
  · rintro ⟨c, hc, he⟩
    rwa [(pyLowerChar_eq_punct_iff c d hd).mp he] at hc
  · intro h
    exact ⟨d, h, (pyLowerChar_eq_punct_iff d d hd).mpr rfl⟩

theorem isSchemeChar_pyLowerChar (c : Char) :
    isSchemeChar (pyLowerChar c) = isSchemeChar c := by
  simp only [isSchemeChar, isAsciiAlpha, isAsciiDigit, char_eq_iff_toNat, pyLowerChar_toNat,
    decide_eq_true_eq]
  have h1 : ('+' : Char).toNat = 43 := by decide
  have h2 : ('-' : Char).toNat = 45 := by decide
  have h3 : ('.' : Char).toNat = 46 := by decide
  rw [h1, h2, h3, decide_eq_decide]
  split_ifs with h <;> omega

theorem isAsciiAlpha_pyLowerChar (c : Char) :
    isAsciiAlpha (pyLowerChar c) = isAsciiAlpha c := by
  simp only [isAsciiAlpha, pyLowerChar_toNat]
  rw [decide_eq_decide]
  split_ifs with h <;> omega

theorem isAsciiDigit_pyLowerChar (c : Char) :
    isAsciiDigit (pyLowerChar c) = isAsciiDigit c := by
  simp only [isAsciiDigit, pyLowerChar_toNat]
  rw [decide_eq_decide]
  split_ifs with h <;> omega

theorem isHexChar_pyLowerChar (c : Char) :
    isHexChar (pyLowerChar c) = isHexChar c := by
  simp only [isHexChar, isAsciiDigit, pyLowerChar_toNat, decide_eq_true_eq]
  rw [decide_eq_decide]
  split_ifs with h <;> omega

theorem hexVal_pyLowerChar (c : Char) (h : isHexChar c = true) :
    hexVal (pyLowerChar c) = hexVal c := by
  simp only [isHexChar, isAsciiDigit, decide_eq_true_eq] at h
  unfold hexVal isAsciiDigit
  simp only [pyLowerChar_toNat, decide_eq_true_eq]
  split_ifs <;> omega

theorem isUnsafeUrlByte_pyLowerChar (c : Char) :
    isUnsafeUrlByte (pyLowerChar c) = isUnsafeUrlByte c := by
  simp only [isUnsafeUrlByte, char_eq_iff_toNat, pyLowerChar_toNat]
  have h1 : ('\t' : Char).toNat = 9 := by decide
  have h2 : ('\r' : Char).toNat = 13 := by decide
  have h3 : ('\n' : Char).toNat = 10 := by decide
  rw [h1, h2, h3, decide_eq_decide]
  split_ifs with h <;> omega

theorem isC0_false_of_alpha (c : Char) (h : isAsciiAlpha c = true) :
    isC0ControlOrSpace c = false := by
  simp only [isAsciiAlpha, decide_eq_true_eq] at h
  simp only [isC0ControlOrSpace, decide_eq_false_iff_not]
  omega

theorem pyLower_digits_self (l : List Char) (h : l.all isAsciiDigit = true) :
    pyLower l = l := by
  unfold pyLower
  rw [List.all_eq_true] at h
  rw [show l.map pyLowerChar = l.map id by
    exact List.map_congr_left (fun c hc => by
      have := h c hc
      simp only [isAsciiDigit, decide_eq_true_eq] at this
      exact pyLowerChar_of_not_upper c (by omega))]
  exact List.map_id l

/-! ## Splitting lemmas for the normalization analysis -/

theorem splitFirst_some (sep : Char) :
    ∀ (l x y : List Char), splitFirst sep l = some (x, y) →
      l = x ++ sep :: y ∧ sep ∉ x := by
  intro l
  induction l with
  | nil => intro x y h; cases h
  | cons c cs ih =>
    intro x y h
    unfold splitFirst at h
    by_cases hc : c = sep
    · rw [if_pos hc] at h
      injection h with h2
      injection h2 with hx hy
      subst hx; subst hy; subst hc
      exact ⟨rfl, List.not_mem_nil _⟩
    · rw [if_neg hc] at h
      cases hs : splitFirst sep cs with
      | none => rw [hs] at h; cases h
      | some pr =>
        obtain ⟨a, b⟩ := pr
        rw [hs] at h
        injection h with h2
        injection h2 with hx hy
        subst hy
        obtain ⟨he, hn⟩ := ih a b hs
        subst he
        constructor
        · rw [← hx]; rfl
        · rw [← hx]
          intro hmem
          rcases List.mem_cons.mp hmem with h1 | h1
          · exact hc h1.symm
          · exact hn h1

theorem splitFirst_none_iff (sep : Char) :
    ∀ l : List Char, splitFirst sep l = none ↔ sep ∉ l := by
  intro l
  induction l with
  | nil => simp [splitFirst]
  | cons c cs ih =>
    unfold splitFirst
    by_cases hc : c = sep
    · rw [if_pos hc]
      subst hc
      simp
    · rw [if_neg hc]
      cases hs : splitFirst sep cs with
      | none =>
        simp only [Option.map_none']
        rw [hs] at ih
        simp only [List.mem_cons, true_iff]
        intro hor
        rcases hor with h1 | h1
        · exact hc h1.symm
        · exact ih.mp rfl h1
      | some pr =>
        simp only [Option.map_some']
        constructor
        · intro h; cases h
        · intro hnot
          exfalso
          apply hnot
          have : sep ∈ cs := by
            by_contra hmem
            rw [ih.mpr hmem] at hs
            cases hs
          exact List.mem_cons_of_mem c this

theorem splitFirst_concat (sep : Char) :
    ∀ (x y : List Char), sep ∉ x → splitFirst sep (x ++ sep :: y) = some (x, y) := by
  intro x
  induction x with
  | nil =>
    intro y _
    simp [splitFirst]
  | cons c cs ih =>
    intro y hn
    have hc : c ≠ sep := fun h => hn (by rw [h]; exact List.mem_cons_self _ _)
    have hcs : sep ∉ cs := fun h => hn (List.mem_cons_of_mem c h)
    rw [List.cons_append]
    unfold splitFirst
    rw [if_neg hc, ih y hcs]
    rfl

theorem pySplit_ne_nil (sep : Char) : ∀ l : List Char, pySplit sep l ≠ [] := by
  intro l
  cases l with
  | nil => simp [pySplit]
  | cons c cs =>
    unfold pySplit
    by_cases hc : c = sep
    · rw [if_pos hc]; simp
    · rw [if_neg hc]
      cases pySplit sep cs with
      | nil => simp
      | cons h t => simp

theorem pySplit_cons_ne (sep c : Char) (cs : List Char) (h : c ≠ sep) :
    ∃ hd tl, pySplit sep cs = hd :: tl ∧ pySplit sep (c :: cs) = (c :: hd) :: tl := by
  cases hp : pySplit sep cs with
  | nil => exact absurd hp (pySplit_ne_nil sep cs)
  | cons hd tl =>
    refine ⟨hd, tl, rfl, ?_⟩
    unfold pySplit
    rw [if_neg h, hp]

theorem takeWhile_append_all (q : Char → Bool) :
    ∀ (x y : List Char), (∀ a ∈ x, q a = true) →
      (x ++ y).takeWhile q = x ++ y.takeWhile q := by
  intro x
  induction x with
  | nil => intro y _; rfl
  | cons c cs ih =>
    intro y hall
    rw [List.cons_append, List.takeWhile_cons, if_pos (hall c (List.mem_cons_self c cs)),
      ih y (fun a ha => hall a (List.mem_cons_of_mem c ha)), List.cons_append]

theorem takeWhile_nil_of_head (q : Char → Bool) (y : List Char)
    (h : ∀ c t, y = c :: t → q c = false) : y.takeWhile q = [] := by
  cases y with
  | nil => rfl
  | cons c t => rw [List.takeWhile_cons, if_neg (by rw [h c t rfl]; exact fun hx => nomatch hx)]

theorem mapOption_map (f : β → Option γ) (g : α → β) :
    ∀ l : List α, mapOption f (l.map g) = mapOption (fun x => f (g x)) l := by
  intro l
  induction l with
  | nil => rfl
  | cons x xs ih => simp only [List.map_cons, mapOption, ih]

theorem mapOption_congr (f g : α → Option β) :
    ∀ l : List α, (∀ x ∈ l, f x = g x) → mapOption f l = mapOption g l := by
  intro l
  induction l with
  | nil => intro _; rfl
  | cons x xs ih =>
    intro h
    simp only [mapOption, h x (List.mem_cons_self x xs),
      ih (fun a ha => h a (List.mem_cons_of_mem x ha))]

theorem mapOption_eq_none_of_mem (f : α → Option β) (x : α) :
    ∀ l : List α, x ∈ l → f x = none → mapOption f l = none := by
  intro l
  induction l with
  | nil => intro h; cases h
  | cons y ys ih =>
    intro hmem hf
    rcases List.mem_cons.mp hmem with h1 | h1
    · subst h1
      simp only [mapOption, hf]
    · simp only [mapOption, ih h1 hf]
      cases f y <;> rfl

/-! ## Lowercasing invariance of the IP-address parsers -/

theorem contains_iff_mem (l : List Char) (a : Char) : l.contains a = true ↔ a ∈ l :=
  List.elem_iff

theorem contains_pyLower_punct (l : List Char) (d : Char) (hd : PunctChar d) :
    (pyLower l).contains d = l.contains d := by
  rw [Bool.eq_iff_iff, contains_iff_mem, contains_iff_mem]
  exact mem_pyLower_punct l d hd

theorem all_pyLower_of_invariant (q : Char → Bool)
    (hq : ∀ c, q (pyLowerChar c) = q c) (l : List Char) :
    (pyLower l).all q = l.all q := by
  unfold pyLower
  induction l with
  | nil => rfl
  | cons c cs ih => simp only [List.map_cons, List.all_cons, hq c, ih]

theorem pyLower_length (l : List Char) : (pyLower l).length = l.length :=
  List.length_map l pyLowerChar

theorem parseOctet_pyLower (l : List Char) : parseOctet (pyLower l) = parseOctet l := by
  by_cases hall : l.all isAsciiDigit = true
  · rw [pyLower_digits_self l hall]
  · have h2 : ¬ (pyLower l).all isAsciiDigit = true := by
      rwa [all_pyLower_of_invariant isAsciiDigit isAsciiDigit_pyLowerChar]
    have hne : l ≠ [] := by
      intro h; subst h; exact hall rfl
    have hne2 : pyLower l ≠ [] := by
      rw [Ne, pyLower_eq_nil_iff]; exact hne
    unfold parseOctet
    rw [if_neg hne, if_neg hne2, if_pos (by simpa using h2), if_pos (by simpa using hall)]

theorem pySplit_cons_eq (sep : Char) (cs : List Char) :
    pySplit sep (sep :: cs) = [] :: pySplit sep cs := by
  simp only [pySplit]
  rw [if_pos trivial]

theorem pyLowerChar_punct_self (d : Char) (hd : PunctChar d) : pyLowerChar d = d :=
  (pyLowerChar_eq_punct_iff d d hd).mpr rfl

theorem pySplit_pyLower (sep : Char) (hs : PunctChar sep) (l : List Char) :
    pySplit sep (pyLower l) = (pySplit sep l).map pyLower := by
  induction l with
  | nil => rfl
  | cons c cs ih =>
    show pySplit sep (pyLowerChar c :: pyLower cs) = _
    by_cases hc : c = sep
    · subst hc
      rw [pyLowerChar_punct_self c hs, pySplit_cons_eq, pySplit_cons_eq, ih, List.map_cons]
      rfl
    · have hc2 : pyLowerChar c ≠ sep := fun h => hc ((pyLowerChar_eq_punct_iff c sep hs).mp h)
      obtain ⟨hd, tl, hcs, hl⟩ := pySplit_cons_ne sep c cs hc
      obtain ⟨hd2, tl2, hcs2, hl2⟩ := pySplit_cons_ne sep (pyLowerChar c) (pyLower cs) hc2
      rw [hl2, hl, List.map_cons]
      rw [hcs, List.map_cons] at ih
      rw [ih] at hcs2
      injection hcs2 with he1 he2
      rw [← he1, ← he2]
      rfl

theorem foldl_hexVal_pyLower (l : List Char) (h : l.all isHexChar = true) :
    ∀ a : Nat, (pyLower l).foldl (fun a c => a * 16 + hexVal c) a =
      l.foldl (fun a c => a * 16 + hexVal c) a := by
  induction l with
  | nil => intro a; rfl
  | cons c cs ih =>
    intro a
    rw [List.all_cons, Bool.and_eq_true] at h
    show (pyLower cs).foldl _ (a * 16 + hexVal (pyLowerChar c)) = _
    rw [hexVal_pyLowerChar c h.1]
    exact ih h.2 _

theorem parseHextet_pyLower (l : List Char) : parseHextet (pyLower l) = parseHextet l := by
  unfold parseHextet
  by_cases hne : l = []
  · subst hne; rfl
  · have hne2 : ¬ pyLower l = [] := by rw [pyLower_eq_nil_iff]; exact hne
    rw [if_neg hne2, if_neg hne]
    by_cases hall : l.all isHexChar = true
    · have hall2 : (pyLower l).all isHexChar = true := by
        rwa [all_pyLower_of_invariant isHexChar isHexChar_pyLowerChar]
      rw [if_neg (not_not_intro hall2), if_neg (not_not_intro hall), pyLower_length]
      by_cases hlen : 4 < l.length
      · rw [if_pos hlen, if_pos hlen]
      · rw [if_neg hlen, if_neg hlen, foldl_hexVal_pyLower l hall 0]
    · have hall2 : ¬ (pyLower l).all isHexChar = true := by
        rwa [all_pyLower_of_invariant isHexChar isHexChar_pyLowerChar]
      rw [if_pos hall2, if_pos hall]

theorem natToHex_pyLower (n : Nat) : pyLower (natToHex n) = natToHex n := by
  unfold natToHex pyLower
  rw [List.map_map]
  exact List.map_congr_left (fun c _ => pyLowerChar_idem c)

theorem parseIPv4_pyLower (l : List Char) : parseIPv4 (pyLower l) = parseIPv4 l := by
  unfold parseIPv4
  rw [pySplit_pyLower '.' (by decide) l, mapOption_map,
    mapOption_congr _ _ _ (fun x _ => parseOctet_pyLower x)]

theorem map_getD_of_lt (f : α → β) (l : List α) (i : Nat) (d : β) (d2 : α)
    (h : i < l.length) : (l.map f).getD i d = f (l.getD i d2) := by
  rw [List.getD_eq_getElem _ _ (by simpa using h), List.getD_eq_getElem _ _ h]
  simp

theorem map_headD_of_ne_nil (f : α → β) (l : List α) (d : β) (d2 : α) (h : l ≠ []) :
    (l.map f).headD d = f (l.headD d2) := by
  cases l with
  | nil => exact absurd rfl h
  | cons x t => rfl

theorem map_getLastD_of_ne_nil (f : α → β) (l : List α) (d : β) (d2 : α) (h : l ≠ []) :
    (l.map f).getLastD d = f (l.getLastD d2) := by
  induction l with
  | nil => exact absurd rfl h
  | cons x t ih =>
    cases t with
    | nil => rfl
    | cons y s =>
      simp only [List.map_cons, List.getLastD_cons] at *
      exact ih (by simp)

theorem innerEmptyIdxs_map_pyLower (parts : List (List Char)) :
    innerEmptyIdxs (parts.map pyLower) = innerEmptyIdxs parts := by
  unfold innerEmptyIdxs
  simp only [List.length_map]
  apply List.filter_congr
  intro i hi
  rw [List.mem_range] at hi
  rw [decide_eq_decide, map_getD_of_lt pyLower parts i [' '] [' '] hi, pyLower_eq_nil_iff]

theorem mapOption_hextet_pyLower (l : List (List Char)) :
    mapOption parseHextet (l.map pyLower) = mapOption parseHextet l := by
  rw [mapOption_map]
  exact mapOption_congr _ _ l (fun x _ => parseHextet_pyLower x)

theorem parseIPv6parts_pyLower (parts : List (List Char)) :
    parseIPv6parts (parts.map pyLower) = parseIPv6parts parts := by
  unfold parseIPv6parts
  simp only [List.length_map, innerEmptyIdxs_map_pyLower]
  by_cases h9 : 9 < parts.length
  · rw [if_pos h9, if_pos h9]
  · rw [if_neg h9, if_neg h9]
    rcases hI : innerEmptyIdxs parts with _ | ⟨i, _ | ⟨j, t⟩⟩
    · simp only [hI]
      by_cases h8 : parts.length ≠ 8
      · rw [if_pos h8, if_pos h8]
      · rw [if_neg h8, if_neg h8, mapOption_hextet_pyLower]
    · have hmem : i ∈ innerEmptyIdxs parts := by
        rw [hI]; exact List.mem_cons_self _ _
      unfold innerEmptyIdxs at hmem
      rw [List.mem_filter, List.mem_range] at hmem
      have hpred := of_decide_eq_true hmem.2
      have hne : parts ≠ [] := by
        intro h; subst h
        exact absurd hpred.2.1 (by simp)
      simp only [hI, map_headD_of_ne_nil pyLower parts [' '] [' '] hne,
        map_getLastD_of_ne_nil pyLower parts [' '] [' '] hne, pyLower_eq_nil_iff,
        ← List.map_take, ← List.map_drop, mapOption_hextet_pyLower]
    · simp only [hI]

theorem parseIPv6core_pyLower (l : List Char) : parseIPv6core (pyLower l) = parseIPv6core l := by
  unfold parseIPv6core
  rw [pySplit_pyLower ':' (by decide) l]
  simp only [List.length_map]
  by_cases h3 : (pySplit ':' l).length < 3
  · rw [if_pos h3, if_pos h3]
  · rw [if_neg h3, if_neg h3]
    have hne : pySplit ':' l ≠ [] := pySplit_ne_nil ':' l
    have hlast : ((pySplit ':' l).map pyLower).getLastD [] = pyLower ((pySplit ':' l).getLastD []) :=
      map_getLastD_of_ne_nil pyLower _ [] [] hne
    rw [hlast, contains_pyLower_punct _ '.' (by unfold PunctChar; decide),
      parseIPv4_pyLower]
    by_cases hdot : ((pySplit ':' l).getLastD []).contains '.' = true
    · rw [if_pos hdot, if_pos hdot]
      rcases hv4 : parseIPv4 ((pySplit ':' l).getLastD []) with _ | v4
      · simp only [hv4]
      · simp only [hv4]
        rw [← List.map_dropLast]
        have hrw : (pySplit ':' l).dropLast.map pyLower ++
            [natToHex (v4 / 65536), natToHex (v4 % 65536)] =
            ((pySplit ':' l).dropLast ++
              [natToHex (v4 / 65536), natToHex (v4 % 65536)]).map pyLower := by
          rw [List.map_append]
          simp only [List.map_cons, List.map_nil, natToHex_pyLower]
        rw [hrw, parseIPv6parts_pyLower]
    · rw [if_neg hdot, if_neg hdot]
      show parseIPv6parts ((pySplit ':' l).map pyLower) = parseIPv6parts (pySplit ':' l)
      exact parseIPv6parts_pyLower _

theorem splitFirst_pyLower (sep : Char) (hs : PunctChar sep) (l : List Char) :
    splitFirst sep (pyLower l) =
      (splitFirst sep l).map (fun p => (pyLower p.1, pyLower p.2)) := by
  induction l with
  | nil => rfl
  | cons c cs ih =>
    show splitFirst sep (pyLowerChar c :: pyLower cs) = _
    by_cases hc : c = sep
    · subst hc
      rw [pyLowerChar_punct_self c hs]
      unfold splitFirst
      rw [if_pos rfl, if_pos rfl]
      rfl
    · have hc2 : pyLowerChar c ≠ sep := fun h => hc ((pyLowerChar_eq_punct_iff c sep hs).mp h)
      unfold splitFirst
      rw [if_neg hc2, if_neg hc, ih, Option.map_map]
      rcases splitFirst sep cs with _ | ⟨a, b⟩ <;> rfl

theorem parseIPv6_pyLower (l : List Char) : parseIPv6 (pyLower l) = parseIPv6 l := by
  unfold parseIPv6
  rw [splitFirst_pyLower '%' (by unfold PunctChar; decide) l]
  rcases hsp : splitFirst '%' l with _ | ⟨addr, scope⟩
  · exact parseIPv6core_pyLower l
  · show (if pyLower scope = [] ∨ (pyLower scope).contains '%' = true then none
        else parseIPv6core (pyLower addr)) =
      (if scope = [] ∨ scope.contains '%' = true then none else parseIPv6core addr)
    have hp : ∀ m : List Char, (pyLower m).contains '%' = m.contains '%' :=
      fun m => contains_pyLower_punct m '%' (by unfold PunctChar; decide)
    simp only [pyLower_eq_nil_iff, hp, parseIPv6core_pyLower]

theorem ip_address_pyLower (l : List Char) : ip_address (pyLower l) = ip_address l := by
  unfold ip_address
  rw [parseIPv4_pyLower, parseIPv6_pyLower]

theorem takeWhile_map_invariant (q : Char → Bool) (hq : ∀ c, q (pyLowerChar c) = q c) :
    ∀ l : List Char, (pyLower l).takeWhile q = pyLower (l.takeWhile q) := by
  intro l
  induction l with
  | nil => rfl
  | cons c cs ih =>
    show (pyLowerChar c :: pyLower cs).takeWhile q = _
    rw [List.takeWhile_cons, List.takeWhile_cons, hq c]
    by_cases hc : q c = true
    · rw [if_pos hc, if_pos hc, ih]
      rfl
    · rw [if_neg hc, if_neg hc]
      rfl

theorem parseHextet_V_head (t : List Char) : parseHextet ('V' :: t) = none := by
  unfold parseHextet
  have hall : ('V' :: t).all isHexChar = false := by
    rw [List.all_cons, show isHexChar 'V' = false from by decide, Bool.false_and]
  have hcond : ¬ ('V' :: t).all isHexChar = true := by
    rw [hall]; exact Bool.false_ne_true
  rw [if_neg (by simp : ¬ ('V' :: t = [])), if_pos hcond]

theorem parseIPv6parts_head_nonhex (p0 : List Char) (tl : List (List Char))
    (h0 : parseHextet p0 = none) (hne : p0 ≠ []) :
    parseIPv6parts (p0 :: tl) = none := by
  unfold parseIPv6parts
  by_cases h9 : 9 < (p0 :: tl).length
  · rw [if_pos h9]
  · rw [if_neg h9]
    rcases hI : innerEmptyIdxs (p0 :: tl) with _ | ⟨i, _ | ⟨j, t2⟩⟩
    · simp only []
      by_cases h8 : (p0 :: tl).length ≠ 8
      · rw [if_pos h8]
      · rw [if_neg h8]
        simp only [mapOption, h0]
    · have hmem : i ∈ innerEmptyIdxs (p0 :: tl) := by
        rw [hI]; exact List.mem_cons_self _ _
      unfold innerEmptyIdxs at hmem
      rw [List.mem_filter, List.mem_range] at hmem
      have hpred := of_decide_eq_true hmem.2
      have hhead : (p0 :: tl).headD [' '] = p0 := rfl
      simp only [hhead]
      rw [if_neg (fun h => hne h.1)]
      by_cases hlast : (p0 :: tl).getLastD [' '] = [] ∧ (p0 :: tl).length - i - 1 ≠ 1
      · rw [if_pos hlast]
      · rw [if_neg hlast, if_neg hne]
        by_cases h7 : 7 < i + (if (p0 :: tl).getLastD [' '] = [] then 0
            else (p0 :: tl).length - i - 1)
        · rw [if_pos h7]
        · rw [if_neg h7]
          have htake : mapOption parseHextet ((p0 :: tl).take i) = none := by
            apply mapOption_eq_none_of_mem parseHextet p0 _ _ h0
            rcases Nat.exists_eq_add_of_lt hpred.1 with ⟨k, hk⟩
            have : i = k + 1 := by omega
            rw [this, List.take_succ_cons]
            exact List.mem_cons_self _ _
          rw [htake]
    · simp only []

theorem parseOctet_nonDigit_head (c : Char) (t : List Char)
    (hc : isAsciiDigit c = false) : parseOctet (c :: t) = none := by
  unfold parseOctet
  have hall : (c :: t).all isAsciiDigit = false := by
    rw [List.all_cons, hc, Bool.false_and]
  have hcond : ¬ (c :: t).all isAsciiDigit = true := by
    rw [hall]; exact Bool.false_ne_true
  rw [if_neg (by simp : ¬ (c :: t = [])), if_pos hcond]

theorem parseIPv4_V_head (t : List Char) : parseIPv4 ('V' :: t) = none := by
  unfold parseIPv4
  obtain ⟨hd, tl, _, hl⟩ := pySplit_cons_ne '.' 'V' t (by decide)
  rw [hl]
  have hoct : parseOctet ('V' :: hd) = none := parseOctet_nonDigit_head 'V' hd (by decide)
  simp only [mapOption, hoct]

theorem parseIPv6core_V_head (t : List Char) : parseIPv6core ('V' :: t) = none := by
  unfold parseIPv6core
  obtain ⟨hd, tl, _, hl⟩ := pySplit_cons_ne ':' 'V' t (by decide)
  rw [hl]
  by_cases h3 : (('V' :: hd) :: tl).length < 3
  · rw [if_pos h3]
  · rw [if_neg h3]
    have htl : tl ≠ [] := by
      intro h; subst h; exact h3 (by simp)
    by_cases hdot : ((('V' :: hd) :: tl).getLastD []).contains '.' = true
    · rw [if_pos hdot]
      rcases hv4 : parseIPv4 ((('V' :: hd) :: tl).getLastD []) with _ | v4
      · simp only [hv4]
      · simp only [hv4]
        rw [List.dropLast_cons_of_ne_nil htl, List.cons_append]
        exact parseIPv6parts_head_nonhex _ _ (parseHextet_V_head hd) (by simp)
    · rw [if_neg hdot]
      exact parseIPv6parts_head_nonhex _ _ (parseHextet_V_head hd) (by simp)

theorem parseIPv6_V_head (t : List Char) : parseIPv6 ('V' :: t) = none := by
  unfold parseIPv6
  show (match (if ('V' : Char) = '%' then some ([], t)
      else (splitFirst '%' t).map (fun p => ('V' :: p.1, p.2))) with
    | none => parseIPv6core ('V' :: t)
    | some (addr, scope) =>
      if scope = [] ∨ scope.contains '%' = true then none else parseIPv6core addr) = none
  rw [if_neg (by decide)]
  rcases splitFirst '%' t with _ | ⟨a, b⟩
  · exact parseIPv6core_V_head t
  · show (if b = [] ∨ b.contains '%' = true then none else parseIPv6core ('V' :: a)) = none
    rw [parseIPv6core_V_head a]
    by_cases h : b = [] ∨ b.contains '%' = true
    · rw [if_pos h]
    · rw [if_neg h]

theorem ip_address_V_head (t : List Char) : ip_address ('V' :: t) = none := by
  unfold ip_address
  rw [parseIPv4_V_head, parseIPv6_V_head]

theorem bracketContent_pyLower (nl : List Char) :
    bracketContent (pyLower nl) = pyLower (bracketContent nl) := by
  unfold bracketContent
  rw [splitFirst_pyLower '[' (by unfold PunctChar; decide) nl]
  rcases splitFirst '[' nl with _ | ⟨a, b⟩
  · rfl
  · show (pyLower b).takeWhile (fun c => decide (c ≠ ']')) = _
    rw [takeWhile_map_invariant _ ?hq b]
    case hq =>
      intro c
      rw [decide_eq_decide]
      exact not_congr (pyLowerChar_eq_punct_iff c ']' (by unfold PunctChar; decide))

theorem checkBracketedHost_v (rest : List Char) :
    checkBracketedHost ('v' :: rest) =
      (decide (rest.takeWhile isHexChar ≠ []) &&
        match rest.drop (rest.takeWhile isHexChar).length with
        | '.' :: tl => decide (tl ≠ [])
        | _ => false) := rfl

theorem checkBracketedHost_not_v (c : Char) (t : List Char) (h : c ≠ 'v') :
    checkBracketedHost (c :: t) =
      (match ip_address (c :: t) with
       | some (.v6 _) => true
       | _ => false) := by
  unfold checkBracketedHost
  split
  · next x rest heq =>
    have h1 : c = 'v' := by injection heq with hh ht
    exact absurd h1 h
  · rfl

theorem pyLowerChar_eq_v_iff (c : Char) : pyLowerChar c = 'v' ↔ c = 'v' ∨ c = 'V' := by
  rw [char_eq_iff_toNat, char_eq_iff_toNat, char_eq_iff_toNat, pyLowerChar_toNat]
  have hv : ('v' : Char).toNat = 118 := by decide
  have hV : ('V' : Char).toNat = 86 := by decide
  rw [hv, hV]
  split_ifs with h <;> omega

theorem checkBracketedHost_pyLower_of_true (h : List Char)
    (hc : checkBracketedHost h = true) : checkBracketedHost (pyLower h) = true := by
  cases h with
  | nil => exact hc
  | cons c t =>
    by_cases hcv : c = 'v'
    · subst hcv
      have hpl : pyLower ('v' :: t) = 'v' :: pyLower t := by
        show pyLowerChar 'v' :: pyLower t = _
        rw [show pyLowerChar 'v' = 'v' from by decide]
      rw [hpl, checkBracketedHost_v]
      rw [checkBracketedHost_v] at hc
      rw [Bool.and_eq_true] at hc
      have hhex : (pyLower t).takeWhile isHexChar = pyLower (t.takeWhile isHexChar) :=
        takeWhile_map_invariant isHexChar isHexChar_pyLowerChar t
      have hlen : ((pyLower t).takeWhile isHexChar).length = (t.takeWhile isHexChar).length := by
        rw [hhex, pyLower_length]
      have hdrop : (pyLower t).drop (t.takeWhile isHexChar).length =
          pyLower (t.drop (t.takeWhile isHexChar).length) := by
        unfold pyLower
        rw [List.map_drop]
      rw [Bool.and_eq_true]
      constructor
      · rw [hhex, decide_eq_true_eq, Ne, pyLower_eq_nil_iff]
        exact of_decide_eq_true hc.1
      · have hm := hc.2
        rw [hlen, hdrop]
        rcases hd : t.drop (t.takeWhile isHexChar).length with _ | ⟨c2, tl⟩
        · rw [hd] at hm
          exact absurd hm (by decide)
        · rw [hd] at hm
          split at hm
          · next x tl2 heq =>
            have hc2 : c2 = '.' := by injection heq with h1 h2
            have htl : tl = tl2 := by injection heq with h1 h2
            subst hc2; subst htl
            show decide (pyLower tl ≠ []) = true
            rw [decide_eq_true_eq, Ne, pyLower_eq_nil_iff]
            exact of_decide_eq_true hm
          · exact absurd hm (by decide)
    · by_cases hcV : c = 'V'
      · subst hcV
        rw [checkBracketedHost_not_v 'V' t (by decide), ip_address_V_head] at hc
        exact absurd hc (by decide)
      · have hlv : pyLowerChar c ≠ 'v' := by
          rw [Ne, pyLowerChar_eq_v_iff]
          rintro (h1 | h1)
          · exact hcv h1
          · exact hcV h1
        show checkBracketedHost (pyLowerChar c :: pyLower t) = true
        rw [checkBracketedHost_not_v _ _ hlv]
        have hip : ip_address (pyLowerChar c :: pyLower t) = ip_address (c :: t) :=
          ip_address_pyLower (c :: t)
        rw [hip]
        rw [checkBracketedHost_not_v c t hcv] at hc
        exact hc

theorem bracketOK_pyLower (nl : List Char) (h : BracketOK nl) : BracketOK (pyLower nl) := by
  constructor
  · rw [mem_pyLower_punct nl '[' (by unfold PunctChar; decide),
      mem_pyLower_punct nl ']' (by unfold PunctChar; decide)]
    exact h.1
  · intro hm
    rw [bracketContent_pyLower]
    exact checkBracketedHost_pyLower_of_true _
      (h.2 ((mem_pyLower_punct nl '[' (by unfold PunctChar; decide)).mp hm))

theorem cleanUrl_pyLower (l : List Char) (h : CleanUrl l) : CleanUrl (pyLower l) := by
  intro c hc
  rcases List.mem_map.mp hc with ⟨c0, hc0, he⟩
  rw [← he, isUnsafeUrlByte_pyLowerChar]
  exact h c0 hc0

theorem netlocChars_pyLower (nl : List Char)
    (h : ∀ c ∈ nl, c ≠ '/' ∧ c ≠ '?' ∧ c ≠ '#') :
    ∀ c ∈ pyLower nl, c ≠ '/' ∧ c ≠ '?' ∧ c ≠ '#' := by
  intro c hc
  rcases List.mem_map.mp hc with ⟨c0, hc0, he⟩
  obtain ⟨h1, h2, h3⟩ := h c0 hc0
  subst he
  refine ⟨fun hh => h1 ?_, fun hh => h2 ?_, fun hh => h3 ?_⟩
  · exact (pyLowerChar_eq_punct_iff c0 '/' (by unfold PunctChar; decide)).mp hh
  · exact (pyLowerChar_eq_punct_iff c0 '?' (by unfold PunctChar; decide)).mp hh
  · exact (pyLowerChar_eq_punct_iff c0 '#' (by unfold PunctChar; decide)).mp hh

theorem drop_takeWhile_length (p : Char → Bool) (l : List Char) :
    l.drop (l.takeWhile p).length = l.dropWhile p := by
  have h := List.drop_left (l.takeWhile p) (l.dropWhile p)
  rw [List.takeWhile_append_dropWhile] at h
  exact h

theorem splitLast_some (sep : Char) (l a b : List Char)
    (h : splitLast sep l = some (a, b)) : l = a ++ sep :: b ∧ sep ∉ b := by
  unfold splitLast at h
  rcases hf : splitFirst sep l.reverse with _ | ⟨x, y⟩
  · rw [hf] at h; cases h
  · rw [hf] at h
    injection h with h2
    injection h2 with ha hb
    obtain ⟨he, hn⟩ := splitFirst_some sep l.reverse x y hf
    constructor
    · have h3 := congrArg List.reverse he
      rw [List.reverse_reverse, List.reverse_append, List.reverse_cons,
        List.append_assoc] at h3
      rw [h3, ← ha, ← hb]
      rfl
    · rw [← hb]
      intro hm
      exact hn (List.mem_reverse.mp hm)

theorem splitLast_concat (sep : Char) (a b : List Char) (hn : sep ∉ b) :
    splitLast sep (a ++ sep :: b) = some (a, b) := by
  unfold splitLast
  have hrev : (a ++ sep :: b).reverse = b.reverse ++ sep :: a.reverse := by
    rw [List.reverse_append, List.reverse_cons, List.append_assoc]
    rfl
  rw [hrev, splitFirst_concat sep _ _ (fun hm => hn (List.mem_reverse.mp hm))]
  show some (a.reverse.reverse, b.reverse.reverse) = some (a, b)
  rw [List.reverse_reverse, List.reverse_reverse]

theorem splitParams_no_extras (y : List Char) (h1 : ('/' : Char) ∉ y)
    (h2 : (';' : Char) ∉ y) : splitParams y = (y, []) := by
  unfold splitParams
  rw [if_neg (fun hc => h1 (contains_iff_mem y '/' |>.mp hc)),
    (splitFirst_none_iff ';' y).mpr h2]

theorem splitParams_slash_clean (bef a : List Char) (h1 : ('/' : Char) ∉ a)
    (h2 : (';' : Char) ∉ a) :
    splitParams (bef ++ '/' :: a) = (bef ++ '/' :: a, []) := by
  unfold splitParams
  have hc : (bef ++ '/' :: a).contains '/' = true :=
    (contains_iff_mem _ '/').mpr (List.mem_append.mpr (Or.inr (List.mem_cons_self _ _)))
  rw [if_pos hc, splitLast_concat '/' bef a h1]
  show (match splitFirst ';' a with
    | some (p, b) => (bef ++ '/' :: p, b)
    | none => (bef ++ '/' :: a, [])) = (bef ++ '/' :: a, [])
  rw [(splitFirst_none_iff ';' a).mpr h2]

theorem splitParams_fst_stable (x : List Char) :
    splitParams (splitParams x).1 = ((splitParams x).1, []) := by
  rcases hsp : splitParams x with ⟨y, ps⟩
  show splitParams y = (y, [])
  have hsp2 := hsp
  unfold splitParams at hsp2
  by_cases hsl : x.contains '/' = true
  · rw [if_pos hsl] at hsp2
    rcases hL : splitLast '/' x with _ | ⟨bef, aft⟩
    · rw [hL] at hsp2
      injection hsp2 with hy hps
      subst hy; subst hps
      exact hsp
    · rw [hL] at hsp2
      obtain ⟨hx, haft⟩ := splitLast_some '/' x bef aft hL
      have hsp3 : (match splitFirst ';' aft with
          | some (a, b) => (bef ++ '/' :: a, b)
          | none => (x, [])) = (y, ps) := hsp2
      rcases hF : splitFirst ';' aft with _ | ⟨a, b⟩
      · rw [hF] at hsp3
        injection hsp3 with hy hps
        subst hy; subst hps
        exact hsp
      · rw [hF] at hsp3
        injection hsp3 with hy hps
        obtain ⟨hae, hna⟩ := splitFirst_some ';' aft a b hF
        have hslash : ('/' : Char) ∉ a := by
          intro hm
          apply haft
          rw [hae]
          exact List.mem_append.mpr (Or.inl hm)
        subst hy
        exact splitParams_slash_clean bef a hslash hna
  · rw [if_neg hsl] at hsp2
    have hxs : ('/' : Char) ∉ x := fun hm => hsl ((contains_iff_mem x '/').mpr hm)
    rcases hF : splitFirst ';' x with _ | ⟨a, b⟩
    · rw [hF] at hsp2
      injection hsp2 with hy hps
      subst hy; subst hps
      exact hsp
    · rw [hF] at hsp2
      injection hsp2 with hy hps
      obtain ⟨hae, hna⟩ := splitFirst_some ';' x a b hF
      have hslash : ('/' : Char) ∉ a := by
        intro hm
        apply hxs
        rw [hae]
        exact List.mem_append.mpr (Or.inl hm)
      subst hy
      exact splitParams_no_extras a hslash hna

theorem headD_append_of_ne_nil (a z : List Char) (h : a ≠ []) :
    (a ++ z).headD ' ' = a.headD ' ' := by
  cases a with
  | nil => exact absurd rfl h
  | cons c t => rfl

theorem optSplit_facts (sep : Char) (l x y : List Char)
    (h : (match splitFirst sep l with
          | some p => p
          | none => (l, [])) = (x, y)) :
    sep ∉ x ∧ (∀ c ∈ x, c ∈ l) ∧ (∀ c ∈ y, c ∈ l) ∧
      (x ≠ [] → x.headD ' ' = l.headD ' ') ∧ (sep ∉ l → x = l ∧ y = []) := by
  rcases hf : splitFirst sep l with _ | ⟨a, b⟩
  · rw [hf] at h
    injection h with h1 h2
    subst h1; subst h2
    exact ⟨(splitFirst_none_iff sep l).mp hf, fun c hc => hc, fun c hc => absurd hc
      (List.not_mem_nil c), fun _ => rfl, fun _ => ⟨rfl, rfl⟩⟩
  · rw [hf] at h
    injection h with h1 h2
    subst h1; subst h2
    obtain ⟨he, hn⟩ := splitFirst_some sep l a b hf
    refine ⟨hn, ?_, ?_, ?_, ?_⟩
    · intro c hc
      rw [he]
      exact List.mem_append.mpr (Or.inl hc)
    · intro c hc
      rw [he]
      exact List.mem_append.mpr (Or.inr (List.mem_cons_of_mem sep hc))
    · intro hne
      rw [he]
      exact (headD_append_of_ne_nil a _ hne).symm
    · intro hns
      exact absurd (he ▸ List.mem_append.mpr (Or.inr (List.mem_cons_self sep b))) hns

theorem dropWhile_cons_head_false (p : Char → Bool) :
    ∀ (l : List Char) (c : Char) (t : List Char), l.dropWhile p = c :: t → p c = false := by
  intro l
  induction l with
  | nil => intro c t h; cases h
  | cons a l ih =>
    intro c t h
    rw [List.dropWhile_cons] at h
    by_cases ha : p a = true
    · rw [if_pos ha] at h
      exact ih c t h
    · rw [if_neg ha] at h
      injection h with h1 h2
      subst h1
      cases hpa : p a with
      | false => rfl
      | true => exact absurd hpa ha

theorem splitNetloc_facts (l nl rest : List Char) (h : splitNetloc l = (nl, rest)) :
    (∀ c ∈ nl, c ≠ '/' ∧ c ≠ '?' ∧ c ≠ '#') ∧ (∀ c ∈ nl, c ∈ l) ∧ (∀ c ∈ rest, c ∈ l) ∧
      (rest = [] ∨ rest.headD ' ' = '/' ∨ rest.headD ' ' = '?' ∨ rest.headD ' ' = '#') := by
  unfold splitNetloc at h
  injection h with h1 h2
  subst h1; subst h2
  refine ⟨?_, fun c hc => List.takeWhile_subset _ hc, fun c hc => List.drop_subset _ _ hc, ?_⟩
  · intro c hc
    have hp := List.mem_takeWhile_imp hc
    exact of_decide_eq_true hp
  · rw [drop_takeWhile_length]
    rcases hd : l.dropWhile (fun c => decide (c ≠ '/' ∧ c ≠ '?' ∧ c ≠ '#')) with _ | ⟨c, t⟩
    · exact Or.inl rfl
    · right
      have hp := dropWhile_cons_head_false _ l c t hd
      rw [decide_eq_false_iff_not] at hp
      simp only [List.headD_cons]
      by_cases h1 : c = '/'
      · exact Or.inl h1
      · by_cases h2 : c = '?'
        · exact Or.inr (Or.inl h2)
        · right; right
          by_contra h3
          exact hp ⟨h1, h2, h3⟩

theorem splitParams_fst_facts (x : List Char) :
    (∀ c ∈ (splitParams x).1, c ∈ x) ∧
      ((splitParams x).1 ≠ [] → (splitParams x).1.headD ' ' = x.headD ' ') := by
  rcases hsp : splitParams x with ⟨y, ps⟩
  show (∀ c ∈ y, c ∈ x) ∧ (y ≠ [] → y.headD ' ' = x.headD ' ')
  have hsp2 := hsp
  unfold splitParams at hsp2
  by_cases hsl : x.contains '/' = true
  · rw [if_pos hsl] at hsp2
    rcases hL : splitLast '/' x with _ | ⟨bef, aft⟩
    · rw [hL] at hsp2
      injection hsp2 with hy hps
      subst hy
      exact ⟨fun c hc => hc, fun _ => rfl⟩
    · rw [hL] at hsp2
      obtain ⟨hx, haft⟩ := splitLast_some '/' x bef aft hL
      have hsp3 : (match splitFirst ';' aft with
          | some (a, b) => (bef ++ '/' :: a, b)
          | none => (x, [])) = (y, ps) := hsp2
      rcases hF : splitFirst ';' aft with _ | ⟨a, b⟩
      · rw [hF] at hsp3
        injection hsp3 with hy hps
        subst hy
        exact ⟨fun c hc => hc, fun _ => rfl⟩
      · rw [hF] at hsp3
        injection hsp3 with hy hps
        obtain ⟨hae, hna⟩ := splitFirst_some ';' aft a b hF
        subst hy
        constructor
        · intro c hc
          rw [hx]
          rcases List.mem_append.mp hc with h1 | h1
          · exact List.mem_append.mpr (Or.inl h1)
          · rcases List.mem_cons.mp h1 with h2 | h2
            · exact List.mem_append.mpr (Or.inr (h2 ▸ List.mem_cons_self '/' aft))
            · refine List.mem_append.mpr (Or.inr (List.mem_cons_of_mem '/' ?_))
              rw [hae]
              exact List.mem_append.mpr (Or.inl h2)
        · intro hne
          rw [hx]
          cases bef with
          | nil => rfl
          | cons c t => rfl
  · rw [if_neg hsl] at hsp2
    rcases hF : splitFirst ';' x with _ | ⟨a, b⟩
    · rw [hF] at hsp2
      injection hsp2 with hy hps
      subst hy
      exact ⟨fun c hc => hc, fun _ => rfl⟩
    · rw [hF] at hsp2
      injection hsp2 with hy hps
      obtain ⟨hae, hna⟩ := splitFirst_some ';' x a b hF
      subst hy
      constructor
      · intro c hc
        rw [hae]
        exact List.mem_append.mpr (Or.inl hc)
      · intro hne
        rw [hae]
        exact (headD_append_of_ne_nil a _ hne).symm

theorem cleanUrl_sanitizeUrl (url0 : List Char) : CleanUrl (sanitizeUrl url0) := by
  intro c hc
  unfold sanitizeUrl at hc
  have h2 := (List.mem_filter.mp hc).2
  cases hb : isUnsafeUrlByte c with
  | false => rfl
  | true =>
    rw [decide_eq_true_eq] at h2
    exact absurd hb h2

theorem headD_mem_of_ne_nil (l : List Char) (h : l ≠ []) : l.headD ' ' ∈ l := by
  cases l with
  | nil => exact absurd rfl h
  | cons c t => exact List.mem_cons_self c t

theorem exists_mem_of_ne_nil_chars (l : List Char) (h : l ≠ []) : ∃ c, c ∈ l := by
  cases l with
  | nil => exact absurd rfl h
  | cons c t => exact ⟨c, List.mem_cons_self c t⟩

theorem path_head_slash (rest sub : List Char)
    (hresth : rest = [] ∨ rest.headD ' ' = '/' ∨ rest.headD ' ' = '?' ∨ rest.headD ' ' = '#')
    (hsubm : ∀ c ∈ sub, c ∈ rest)
    (hhead : sub ≠ [] → sub.headD ' ' = rest.headD ' ')
    (hq : ('?' : Char) ∉ sub) (hh : ('#' : Char) ∉ sub) :
    sub = [] ∨ sub.headD ' ' = '/' := by
  by_cases hne : sub = []
  · exact Or.inl hne
  · right
    have h1 := hhead hne
    have hmem := headD_mem_of_ne_nil sub hne
    rcases hresth with h2 | h2 | h2 | h2
    · obtain ⟨c, hc⟩ := exists_mem_of_ne_nil_chars sub hne
      have h3 := hsubm c hc
      rw [h2] at h3
      exact absurd h3 (List.not_mem_nil c)
    · rw [h1, h2]
    · rw [h1, h2] at hmem
      exact absurd hmem hq
    · rw [h1, h2] at hmem
      exact absurd hmem hh

theorem fragQuery_facts (rest uf1 fr pth q : List Char)
    (hf : (match splitFirst '#' rest with
          | some p => p
          | none => (rest, [])) = (uf1, fr))
    (hpq : (match splitFirst '?' uf1 with
          | some p => p
          | none => (uf1, [])) = (pth, q)) :
    ('?' : Char) ∉ pth ∧ ('#' : Char) ∉ pth ∧ ('#' : Char) ∉ q ∧
      (∀ c ∈ pth, c ∈ rest) ∧ (∀ c ∈ q, c ∈ rest) ∧
      (pth ≠ [] → pth.headD ' ' = rest.headD ' ') := by
  obtain ⟨hf1, hf2, hf3, hf4, _⟩ := optSplit_facts '#' rest uf1 fr hf
  obtain ⟨hq1, hq2, hq3, hq4, _⟩ := optSplit_facts '?' uf1 pth q hpq
  refine ⟨hq1, fun hm => hf1 (hq2 '#' hm), fun hm => hf1 (hq3 '#' hm),
    fun c hc => hf2 c (hq2 c hc), fun c hc => hf2 c (hq3 c hc), ?_⟩
  intro hne
  have hufne : uf1 ≠ [] := by
    obtain ⟨c, hc⟩ := exists_mem_of_ne_nil_chars pth hne
    exact List.ne_nil_of_mem (hq2 c hc)
  rw [hq4 hne, hf4 hufne]

theorem urlsplitTail_ok_facts (scheme nl rest : List Char) (r : SplitResult)
    (hnlp : ∀ c ∈ nl, c ≠ '/' ∧ c ≠ '?' ∧ c ≠ '#')
    (hbrOK : BracketOK nl)
    (hclnl : CleanUrl nl) (hclrest : CleanUrl rest)
    (hresth : nl ≠ [] →
      rest = [] ∨ rest.headD ' ' = '/' ∨ rest.headD ' ' = '?' ∨ rest.headD ' ' = '#')
    (h : Except.ok (⟨scheme, nl,
        (match splitFirst '?' ((match splitFirst '#' rest with
            | some p => p
            | none => (rest, [])).1) with
          | some p => p
          | none => ((match splitFirst '#' rest with
              | some p => p
              | none => (rest, [])).1, [])).1,
        (match splitFirst '?' ((match splitFirst '#' rest with
            | some p => p
            | none => (rest, [])).1) with
          | some p => p
          | none => ((match splitFirst '#' rest with
              | some p => p
              | none => (rest, [])).1, [])).2,
        (match splitFirst '#' rest with
          | some p => p
          | none => (rest, [])).2⟩ : SplitResult) =
      (Except.ok r : Except String SplitResult)) :
    r.scheme = scheme ∧
    (∀ c ∈ r.netloc, c ≠ '/' ∧ c ≠ '?' ∧ c ≠ '#') ∧
    BracketOK r.netloc ∧
    (r.netloc ≠ [] → r.path = [] ∨ r.path.headD ' ' = '/') ∧
    (('?' : Char) ∉ r.path) ∧ (('#' : Char) ∉ r.path) ∧ (('#' : Char) ∉ r.query) ∧
    CleanUrl r.netloc ∧ CleanUrl r.path ∧ CleanUrl r.query := by
  injection h with h2
  obtain ⟨hq1, hph, hqh, hpm, hqm, hhead⟩ := fragQuery_facts rest _ _ _ _ rfl rfl
  rw [← h2]
  exact ⟨rfl, hnlp, hbrOK,
    fun hne => path_head_slash rest _ (hresth hne) hpm hhead hq1 hph,
    hq1, hph, hqh, hclnl,
    fun c hc => hclrest c (hpm c hc), fun c hc => hclrest c (hqm c hc)⟩

theorem urlsplitTail_facts (scheme url2 : List Char) (r : SplitResult)
    (hcl : CleanUrl url2)
    (h : urlsplitTail scheme url2 = Except.ok r) :
    r.scheme = scheme ∧
    (∀ c ∈ r.netloc, c ≠ '/' ∧ c ≠ '?' ∧ c ≠ '#') ∧
    BracketOK r.netloc ∧
    (r.netloc ≠ [] → r.path = [] ∨ r.path.headD ' ' = '/') ∧
    (('?' : Char) ∉ r.path) ∧ (('#' : Char) ∉ r.path) ∧ (('#' : Char) ∉ r.query) ∧
    CleanUrl r.netloc ∧ CleanUrl r.path ∧ CleanUrl r.query := by
  simp only [urlsplitTail] at h
  by_cases hslash : url2.take 2 = ['/', '/']
  · rw [if_pos hslash] at h
    rcases hnl : splitNetloc (url2.drop 2) with ⟨nl, rest⟩
    simp only [hnl] at h
    obtain ⟨hnlp, hnlm, hrestm, hresth⟩ := splitNetloc_facts (url2.drop 2) nl rest hnl
    have hclnl : CleanUrl nl := fun c hc => hcl c (List.drop_subset _ _ (hnlm c hc))
    have hclrest : CleanUrl rest := fun c hc => hcl c (List.drop_subset _ _ (hrestm c hc))
    by_cases hbr1 : (nl.contains '[' = true ∧ ¬ nl.contains ']' = true) ∨
        (nl.contains ']' = true ∧ ¬ nl.contains '[' = true)
    · rw [if_pos hbr1] at h
      exact Except.noConfusion h
    · rw [if_neg hbr1] at h
      have hbrIff : (('[' : Char) ∈ nl ↔ (']' : Char) ∈ nl) := by
        rw [← contains_iff_mem, ← contains_iff_mem]
        constructor
        · intro h1
          by_contra h2
          exact hbr1 (Or.inl ⟨h1, h2⟩)
        · intro h1
          by_contra h2
          exact hbr1 (Or.inr ⟨h1, h2⟩)
      by_cases hbb : nl.contains '[' = true ∧ nl.contains ']' = true
      · rw [if_pos hbb] at h
        by_cases hchk : checkBracketedHost (bracketContent nl) = true
        · rw [if_pos hchk] at h
          exact urlsplitTail_ok_facts scheme nl rest r hnlp ⟨hbrIff, fun _ => hchk⟩
            hclnl hclrest (fun _ => hresth) h
        · rw [if_neg hchk] at h
          exact Except.noConfusion h
      · rw [if_neg hbb] at h
        have hbrOK : BracketOK nl :=
          ⟨hbrIff, fun hbm => absurd ⟨(contains_iff_mem nl '[').mpr hbm,
            (contains_iff_mem nl ']').mpr (hbrIff.mp hbm)⟩ hbb⟩
        exact urlsplitTail_ok_facts scheme nl rest r hnlp hbrOK
          hclnl hclrest (fun _ => hresth) h
  · rw [if_neg hslash] at h
    exact urlsplitTail_ok_facts scheme [] url2 r
      (fun c hc => absurd hc (List.not_mem_nil c))
      ⟨Iff.intro (fun hm => absurd hm (List.not_mem_nil _))
        (fun hm => absurd hm (List.not_mem_nil _)),
       fun hm => absurd hm (List.not_mem_nil _)⟩
      (fun c hc => absurd hc (List.not_mem_nil c)) hcl
      (fun hne => absurd rfl hne) h

theorem validLowerScheme_pyLower (bef : List Char)
    (hcond : bef ≠ [] ∧ isAsciiAlpha (bef.headD ' ') = true ∧
      (bef.drop 1).all isSchemeChar = true) :
    ValidLowerScheme (pyLower bef) := by
  obtain ⟨hne, hal, hrest⟩ := hcond
  refine ⟨?_, ?_, ?_, pyLower_idem bef⟩
  · rw [Ne, pyLower_eq_nil_iff]
    exact hne
  · cases bef with
    | nil => exact absurd rfl hne
    | cons c t =>
      show isAsciiAlpha ((pyLowerChar c :: pyLower t).headD ' ') = true
      rw [List.headD_cons, isAsciiAlpha_pyLowerChar]
      exact hal
  · rw [all_pyLower_of_invariant isSchemeChar isSchemeChar_pyLowerChar]
    cases bef with
    | nil => rfl
    | cons c t =>
      have hc : isSchemeChar c = true := by
        simp only [isSchemeChar, decide_eq_true_eq]
        exact Or.inl hal
      rw [List.all_cons, hc, Bool.true_and]
      exact hrest

theorem urlsplitCore_facts (url0 d : List Char) (r : SplitResult)
    (h : urlsplitCore url0 d = Except.ok r) :
    (r.scheme = sanitizeScheme d ∨ ValidLowerScheme r.scheme) ∧
    (∀ c ∈ r.netloc, c ≠ '/' ∧ c ≠ '?' ∧ c ≠ '#') ∧
    BracketOK r.netloc ∧
    (r.netloc ≠ [] → r.path = [] ∨ r.path.headD ' ' = '/') ∧
    (('?' : Char) ∉ r.path) ∧ (('#' : Char) ∉ r.path) ∧ (('#' : Char) ∉ r.query) ∧
    CleanUrl r.netloc ∧ CleanUrl r.path ∧ CleanUrl r.query := by
  simp only [urlsplitCore] at h
  rcases hsp : splitFirst ':' (sanitizeUrl url0) with _ | ⟨bef, aft⟩
  · simp only [hsp] at h
    obtain ⟨h1, rest⟩ := urlsplitTail_facts _ _ r (cleanUrl_sanitizeUrl url0) h
    exact ⟨Or.inl h1, rest⟩
  · simp only [hsp] at h
    by_cases hcond : bef ≠ [] ∧ isAsciiAlpha (bef.headD ' ') = true ∧
        (bef.drop 1).all isSchemeChar = true
    · rw [if_pos hcond] at h
      have hclaft : CleanUrl aft := by
        obtain ⟨he, _⟩ := splitFirst_some ':' (sanitizeUrl url0) bef aft hsp
        intro c hc
        apply cleanUrl_sanitizeUrl url0 c
        rw [he]
        exact List.mem_append.mpr (Or.inr (List.mem_cons_of_mem ':' hc))
      obtain ⟨h1, rest⟩ := urlsplitTail_facts _ aft r hclaft h
      refine ⟨Or.inr ?_, rest⟩
      rw [h1]
      exact validLowerScheme_pyLower bef hcond
    · rw [if_neg hcond] at h
      obtain ⟨h1, rest⟩ := urlsplitTail_facts _ _ r (cleanUrl_sanitizeUrl url0) h
      exact ⟨Or.inl h1, rest⟩

theorem urlparseCore_facts (url0 d : List Char) (p : UrlParts)
    (h : urlparseCore url0 d = Except.ok p) :
    (p.scheme = sanitizeScheme d ∨ ValidLowerScheme p.scheme) ∧
    (∀ c ∈ p.netloc, c ≠ '/' ∧ c ≠ '?' ∧ c ≠ '#') ∧
    BracketOK p.netloc ∧
    (p.netloc ≠ [] → p.path = [] ∨ p.path.headD ' ' = '/') ∧
    (('?' : Char) ∉ p.path) ∧ (('#' : Char) ∉ p.path) ∧ (('#' : Char) ∉ p.query) ∧
    CleanUrl p.netloc ∧ CleanUrl p.path ∧ CleanUrl p.query ∧
    (p.scheme ∈ uses_params ∧ p.path.contains ';' = true →
      splitParams p.path = (p.path, [])) := by
  unfold urlparseCore at h
  rcases hs : urlsplitCore url0 d with e | sr
  · rw [hs] at h
    exact Except.noConfusion h
  · rw [hs] at h
    obtain ⟨f1, f2, f3, f4, f5, f6, f7, f8, f9, f10⟩ := urlsplitCore_facts url0 d sr hs
    have h0 : (if sr.scheme ∈ uses_params ∧ sr.path.contains ';' = true then
        Except.ok (⟨sr.scheme, sr.netloc, (splitParams sr.path).1, (splitParams sr.path).2,
          sr.query, sr.fragment⟩ : UrlParts)
      else Except.ok (⟨sr.scheme, sr.netloc, sr.path, [], sr.query, sr.fragment⟩ : UrlParts)) =
        (Except.ok p : Except String UrlParts) := h
    by_cases hc : sr.scheme ∈ uses_params ∧ sr.path.contains ';' = true
    · rw [if_pos hc] at h0
      injection h0 with h2
      rw [← h2]
      obtain ⟨hm, hh⟩ := splitParams_fst_facts sr.path
      refine ⟨f1, f2, f3, ?_, fun hq => f5 (hm '?' hq), fun hq => f6 (hm '#' hq), f7,
        f8, fun c hcc => f9 c (hm c hcc), f10, fun _ => splitParams_fst_stable sr.path⟩
      intro hne
      by_cases hpe : (splitParams sr.path).1 = []
      · exact Or.inl hpe
      · right
        rw [hh hpe]
        rcases f4 hne with h1 | h1
        · obtain ⟨c, hcc⟩ := exists_mem_of_ne_nil_chars _ hpe
          have h3 := hm c hcc
          rw [h1] at h3
          exact absurd h3 (List.not_mem_nil c)
        · exact h1
    · rw [if_neg hc] at h0
      injection h0 with h2
      rw [← h2]
      exact ⟨f1, f2, f3, f4, f5, f6, f7, f8, f9, f10, fun hcc => absurd hcc hc⟩

theorem urlsplitTail_rebuild (s nl pth q : List Char)
    (hnlp : ∀ c ∈ nl, c ≠ '/' ∧ c ≠ '?' ∧ c ≠ '#')
    (hbr : BracketOK nl)
    (hpth : pth = [] ∨ pth.headD ' ' = '/')
    (hq1 : ('?' : Char) ∉ pth) (hq2 : ('#' : Char) ∉ pth) (hq3 : ('#' : Char) ∉ q) :
    urlsplitTail s ('/' :: '/' :: (nl ++ pth ++ optQuery q)) =
      Except.ok ⟨s, nl, pth, q, []⟩ := by
  have hsn : splitNetloc (nl ++ pth ++ optQuery q) = (nl, pth ++ optQuery q) := by
    unfold splitNetloc
    have htw : (nl ++ pth ++ optQuery q).takeWhile
        (fun c => decide (c ≠ '/' ∧ c ≠ '?' ∧ c ≠ '#')) = nl := by
      rw [List.append_assoc, takeWhile_append_all _ nl (pth ++ optQuery q)
        (fun a ha => by
          obtain ⟨d1, d2, d3⟩ := hnlp a ha
          rw [decide_eq_true_eq]
          exact ⟨d1, d2, d3⟩)]
      rw [takeWhile_nil_of_head _ (pth ++ optQuery q) ?hh, List.append_nil]
      case hh =>
        intro c t hct
        rw [decide_eq_false_iff_not]
        intro ⟨d1, d2, d3⟩
        rcases hpth with hp | hp
        · subst hp
          rw [List.nil_append] at hct
          unfold optQuery at hct
          by_cases hqe : q = []
          · rw [if_pos hqe] at hct
            exact List.noConfusion hct
          · rw [if_neg hqe] at hct
            injection hct with hc1 hc2
            exact d2 hc1.symm
        · cases pth with
          | nil => exact absurd hp (by decide)
          | cons c0 t0 =>
            rw [List.cons_append] at hct
            injection hct with hc1 hc2
            rw [List.headD_cons] at hp
            exact d1 (hc1.symm.trans hp)
    rw [htw]
    show (nl, List.drop nl.length (nl ++ pth ++ optQuery q)) = (nl, pth ++ optQuery q)
    rw [List.append_assoc, List.drop_left]
  have hno : ('#' : Char) ∉ pth ++ optQuery q := by
    intro hm
    rcases List.mem_append.mp hm with h1 | h1
    · exact hq2 h1
    · unfold optQuery at h1
      by_cases hqe : q = []
      · rw [if_pos hqe] at h1
        exact List.not_mem_nil _ h1
      · rw [if_neg hqe] at h1
        rcases List.mem_cons.mp h1 with h2 | h2
        · exact absurd h2 (by decide)
        · exact hq3 h2
  have hfq : (match splitFirst '#' (pth ++ optQuery q) with
      | some p => p
      | none => (pth ++ optQuery q, [])) = (pth ++ optQuery q, []) := by
    rw [(splitFirst_none_iff '#' _).mpr hno]
  have hpq : (match splitFirst '?' (pth ++ optQuery q) with
      | some p => p
      | none => (pth ++ optQuery q, [])) = (pth, q) := by
    by_cases hqe : q = []
    · subst hqe
      rw [show optQuery [] = [] from rfl, List.append_nil,
        (splitFirst_none_iff '?' pth).mpr hq1]
    · rw [show optQuery q = '?' :: q from if_neg hqe, splitFirst_concat '?' pth q hq1]
  have hbr1 : ¬ ((nl.contains '[' = true ∧ ¬ nl.contains ']' = true) ∨
      (nl.contains ']' = true ∧ ¬ nl.contains '[' = true)) := by
    rintro (⟨ha, hb⟩ | ⟨ha, hb⟩)
    · exact hb ((contains_iff_mem nl ']').mpr (hbr.1.mp ((contains_iff_mem nl '[').mp ha)))
    · exact hb ((contains_iff_mem nl '[').mpr (hbr.1.mpr ((contains_iff_mem nl ']').mp ha)))
  simp only [urlsplitTail]
  rw [if_pos (show (('/' :: '/' :: (nl ++ pth ++ optQuery q)).take 2 = ['/', '/']) from rfl),
    show ('/' :: '/' :: (nl ++ pth ++ optQuery q)).drop 2 = nl ++ pth ++ optQuery q from rfl]
  simp only [hsn]
  rw [if_neg hbr1]
  have hfinish : (match (Except.ok (nl, pth ++ optQuery q) :
      Except String (List Char × List Char)) with
    | Except.error e => Except.error e
    | Except.ok (netloc, url3) =>
      (Except.ok (⟨s, netloc,
        (match splitFirst '?' ((match splitFirst '#' url3 with
            | some p => p
            | none => (url3, [])).1) with
          | some p => p
          | none => ((match splitFirst '#' url3 with
              | some p => p
              | none => (url3, [])).1, [])).1,
        (match splitFirst '?' ((match splitFirst '#' url3 with
            | some p => p
            | none => (url3, [])).1) with
          | some p => p
          | none => ((match splitFirst '#' url3 with
              | some p => p
              | none => (url3, [])).1, [])).2,
        (match splitFirst '#' url3 with
          | some p => p
          | none => (url3, [])).2⟩ : SplitResult) : Except String SplitResult)) =
      Except.ok ⟨s, nl, pth, q, []⟩ := by
    show (Except.ok (⟨s, nl,
        (match splitFirst '?' ((match splitFirst '#' (pth ++ optQuery q) with
            | some p => p
            | none => (pth ++ optQuery q, [])).1) with
          | some p => p
          | none => ((match splitFirst '#' (pth ++ optQuery q) with
              | some p => p
              | none => (pth ++ optQuery q, [])).1, [])).1,
        (match splitFirst '?' ((match splitFirst '#' (pth ++ optQuery q) with
            | some p => p
            | none => (pth ++ optQuery q, [])).1) with
          | some p => p
          | none => ((match splitFirst '#' (pth ++ optQuery q) with
              | some p => p
              | none => (pth ++ optQuery q, [])).1, [])).2,
        (match splitFirst '#' (pth ++ optQuery q) with
          | some p => p
          | none => (pth ++ optQuery q, [])).2⟩ : SplitResult) : Except String SplitResult) =
      Except.ok ⟨s, nl, pth, q, []⟩
    rw [hfq]
    show (Except.ok (⟨s, nl,
        (match splitFirst '?' (pth ++ optQuery q) with
          | some p => p
          | none => (pth ++ optQuery q, [])).1,
        (match splitFirst '?' (pth ++ optQuery q) with
          | some p => p
          | none => (pth ++ optQuery q, [])).2,
        ([] : List Char)⟩ : SplitResult) : Except String SplitResult) =
      Except.ok ⟨s, nl, pth, q, []⟩
    rw [hpq]
  by_cases hbb : nl.contains '[' = true ∧ nl.contains ']' = true
  · rw [if_pos hbb, if_pos (hbr.2 ((contains_iff_mem nl '[').mp hbb.1))]
    exact hfinish
  · rw [if_neg hbb]
    exact hfinish

theorem schemeChar_clean (c : Char) (h : isSchemeChar c = true) :
    isUnsafeUrlByte c = false := by
  cases hb : isUnsafeUrlByte c with
  | false => rfl
  | true =>
    have h2 := of_decide_eq_true hb
    rcases h2 with h3 | h3 | h3 <;> (subst h3; exact absurd h (by decide))

theorem urlsplitCore_rebuild (s nl pth q d : List Char)
    (hs : ValidLowerScheme s)
    (hnlp : ∀ c ∈ nl, c ≠ '/' ∧ c ≠ '?' ∧ c ≠ '#')
    (hbr : BracketOK nl)
    (hpth : pth = [] ∨ pth.headD ' ' = '/')
    (hq1 : ('?' : Char) ∉ pth) (hq2 : ('#' : Char) ∉ pth) (hq3 : ('#' : Char) ∉ q)
    (hcln : CleanUrl nl) (hclp : CleanUrl pth) (hclq : CleanUrl q) :
    urlsplitCore (s ++ ':' :: '/' :: '/' :: (nl ++ pth ++ optQuery q)) d =
      Except.ok ⟨s, nl, pth, q, []⟩ := by
  obtain ⟨hne, halpha, hall, hlow⟩ := hs
  have hclALL : CleanUrl (s ++ ':' :: '/' :: '/' :: (nl ++ pth ++ optQuery q)) := by
    intro c hc
    rcases List.mem_append.mp hc with h1 | h1
    · exact schemeChar_clean c (List.all_eq_true.mp hall c h1)
    · rcases List.mem_cons.mp h1 with h2 | h2
      · subst h2; rfl
      · rcases List.mem_cons.mp h2 with h3 | h3
        · subst h3; rfl
        · rcases List.mem_cons.mp h3 with h4 | h4
          · subst h4; rfl
          · rcases List.mem_append.mp h4 with h5 | h5
            · rcases List.mem_append.mp h5 with h6 | h6
              · exact hcln c h6
              · exact hclp c h6
            · unfold optQuery at h5
              by_cases hqe : q = []
              · rw [if_pos hqe] at h5
                exact absurd h5 (List.not_mem_nil c)
              · rw [if_neg hqe] at h5
                rcases List.mem_cons.mp h5 with h6 | h6
                · subst h6; rfl
                · exact hclq c h6
  have hsan : sanitizeUrl (s ++ ':' :: '/' :: '/' :: (nl ++ pth ++ optQuery q)) =
      s ++ ':' :: '/' :: '/' :: (nl ++ pth ++ optQuery q) := by
    unfold sanitizeUrl
    cases s with
    | nil => exact absurd rfl hne
    | cons c0 t0 =>
      rw [List.cons_append, List.dropWhile_cons,
        if_neg (by
          rw [isC0_false_of_alpha c0 (by rw [List.headD_cons] at halpha; exact halpha)]
          exact Bool.false_ne_true)]
      rw [List.filter_eq_self.mpr]
      intro a ha
      rw [hclALL a (List.cons_append c0 t0 _ ▸ ha)]
      decide
  have hcolon : (':' : Char) ∉ s := by
    intro hm
    exact absurd (List.all_eq_true.mp hall ':' hm) (by decide)
  have hdropall : (s.drop 1).all isSchemeChar = true := by
    rw [List.all_eq_true]
    intro x hx
    exact List.all_eq_true.mp hall x (List.drop_subset 1 s hx)
  simp only [urlsplitCore, hsan, splitFirst_concat ':' s _ hcolon]
  rw [if_pos ⟨hne, halpha, hdropall⟩, hlow]
  exact urlsplitTail_rebuild s nl pth q hnlp hbr hpth hq1 hq2 hq3

theorem urlparseCore_rebuild (s nl pth q d : List Char)
    (hs : ValidLowerScheme s)
    (hnlp : ∀ c ∈ nl, c ≠ '/' ∧ c ≠ '?' ∧ c ≠ '#')
    (hbr : BracketOK nl)
    (hpth : pth = [] ∨ pth.headD ' ' = '/')
    (hq1 : ('?' : Char) ∉ pth) (hq2 : ('#' : Char) ∉ pth) (hq3 : ('#' : Char) ∉ q)
    (hcln : CleanUrl nl) (hclp : CleanUrl pth) (hclq : CleanUrl q)
    (hstab : s ∈ uses_params ∧ pth.contains ';' = true → splitParams pth = (pth, [])) :
    urlparseCore (s ++ ':' :: '/' :: '/' :: (nl ++ pth ++ optQuery q)) d =
      Except.ok ⟨s, nl, pth, [], q, []⟩ := by
  unfold urlparseCore
  rw [urlsplitCore_rebuild s nl pth q d hs hnlp hbr hpth hq1 hq2 hq3 hcln hclp hclq]
  show (if s ∈ uses_params ∧ pth.contains ';' = true then
      Except.ok (⟨s, nl, (splitParams pth).1, (splitParams pth).2, q, []⟩ : UrlParts)
    else Except.ok (⟨s, nl, pth, [], q, []⟩ : UrlParts)) =
      Except.ok ⟨s, nl, pth, [], q, []⟩
  by_cases hc : s ∈ uses_params ∧ pth.contains ';' = true
  · rw [if_pos hc, hstab hc]
  · rw [if_neg hc]

theorem uses_relative_sub_netloc : ∀ x ∈ uses_relative, x ∈ uses_netloc := by decide

theorem urlunparse_rebuild (s lnl pth q : List Char)
    (hsne : s ≠ []) (hlnlne : lnl ≠ [])
    (hpth : pth = [] ∨ pth.headD ' ' = '/') :
    urlunparseCore ⟨s, lnl, pth, [], q, []⟩ =
      s ++ ':' :: '/' :: '/' :: (lnl ++ pth ++ optQuery q) := by
  unfold urlunparseCore
  rw [if_neg (not_not_intro (rfl :
    (⟨s, lnl, pth, [], q, []⟩ : UrlParts).params = []))]
  show urlunsplitCore s lnl pth q [] = s ++ ':' :: '/' :: '/' :: (lnl ++ pth ++ optQuery q)
  unfold urlunsplitCore
  rw [if_pos (Or.inl hlnlne)]
  rw [if_neg (show ¬ (pth ≠ [] ∧ pth.headD ' ' ≠ '/') by
    rintro ⟨h1, h2⟩
    rcases hpth with h3 | h3
    · exact h1 h3
    · exact h2 h3)]
  dsimp only []
  rw [if_pos hsne]
  rw [if_neg (not_not_intro (rfl : ([] : List Char) = []))]
  by_cases hqe : q = []
  · subst hqe
    rw [if_neg (not_not_intro rfl), show optQuery [] = [] from rfl, List.append_nil]
  · rw [if_pos hqe, show optQuery q = '?' :: q from if_neg hqe]
    simp [List.append_assoc]

theorem rebuildUrl_shape (p : UrlParts) (hlow : pyLower p.scheme = p.scheme) :
    rebuildUrl p = p.scheme ++ ':' :: '/' :: '/' ::
      (pyLower p.netloc ++ p.path ++ optQuery p.query) := by
  unfold rebuildUrl
  rw [hlow, show chars "://" = [':', '/', '/'] from rfl]
  simp [List.append_assoc]

theorem normalize_out_eq (p : UrlParts) :
    (if p.query ≠ [] then
        (pyLower p.scheme ++ chars "://" ++ pyLower p.netloc ++ p.path) ++ '?' :: p.query
      else pyLower p.scheme ++ chars "://" ++ pyLower p.netloc ++ p.path) = rebuildUrl p := by
  unfold rebuildUrl optQuery
  by_cases hq : p.query = []
  · rw [if_neg (not_not_intro hq), if_pos hq, List.append_nil]
  · rw [if_pos hq, if_neg hq]

/-- C8 (amended): normalization is idempotent whenever the resolved URL
parses with a nonempty scheme and a nonempty netloc — if
`urljoin(base, url)` parses to components `p` with `p.scheme ≠ ""` and
`p.netloc ≠ ""`, then feeding `normalize_url`'s output back through
`normalize_url` with the same base returns it unchanged.  (Without
nonempty scheme and netloc the claim fails, see the counterexample.) -/
theorem normalize_url_idempotent (u b n : String) (a : List Char) (p : UrlParts)
    (hj : urljoinCore b.data u.data = Except.ok a)
    (hp : urlparseCore a [] = Except.ok p)
    (hscheme : p.scheme ≠ [])
    (hnetloc : p.netloc ≠ [])
    (hn : normalize_url u b = Except.ok n) :
    normalize_url n b = Except.ok n := by
  obtain ⟨fsch, fnl, fbr, fhead, fqm, fhp, fhq, fcln, fclp, fclq, fstab⟩ :=
    urlparseCore_facts a [] p hp
  have hVLS : ValidLowerScheme p.scheme := by
    rcases fsch with h1 | h1
    · exact absurd h1 hscheme
    · exact h1
  have hlow : pyLower p.scheme = p.scheme := hVLS.2.2.2
  have hpthfact : p.path = [] ∨ p.path.headD ' ' = '/' := fhead hnetloc
  have hcore : normalize_urlCore u.data b.data = Except.ok (rebuildUrl p) := by
    unfold normalize_urlCore
    rw [hj]
    show (match urlparseCore a [] with
      | Except.error e => Except.error e
      | Except.ok p2 =>
        Except.ok (if p2.query ≠ [] then
            (pyLower p2.scheme ++ chars "://" ++ pyLower p2.netloc ++ p2.path) ++ '?' :: p2.query
          else pyLower p2.scheme ++ chars "://" ++ pyLower p2.netloc ++ p2.path)) =
      Except.ok (rebuildUrl p)
    rw [hp]
    show Except.ok (if p.query ≠ [] then
        (pyLower p.scheme ++ chars "://" ++ pyLower p.netloc ++ p.path) ++ '?' :: p.query
      else pyLower p.scheme ++ chars "://" ++ pyLower p.netloc ++ p.path) =
      Except.ok (rebuildUrl p)
    rw [normalize_out_eq p]
  have hn2 : n = (⟨rebuildUrl p⟩ : String) := by
    unfold normalize_url at hn
    rw [hcore] at hn
    have hn3 : (Except.ok (⟨rebuildUrl p⟩ : String) : Except String String) = Except.ok n := hn
    injection hn3 with h4
    exact h4.symm
  have hnd : n.data = rebuildUrl p := by rw [hn2]
  have hshape : n.data = p.scheme ++ ':' :: '/' :: '/' ::
      (pyLower p.netloc ++ p.path ++ optQuery p.query) := by
    rw [hnd]
    exact rebuildUrl_shape p hlow
  have hlnlne : pyLower p.netloc ≠ [] := by
    rw [Ne, pyLower_eq_nil_iff]
    exact hnetloc
  have hreparse : ∀ d, urlparseCore n.data d =
      Except.ok ⟨p.scheme, pyLower p.netloc, p.path, [], p.query, []⟩ := by
    intro d
    rw [hshape]
    exact urlparseCore_rebuild p.scheme (pyLower p.netloc) p.path p.query d hVLS
      (netlocChars_pyLower p.netloc fnl) (bracketOK_pyLower p.netloc fbr)
      hpthfact fqm fhp fhq
      (cleanUrl_pyLower p.netloc fcln) fclp fclq fstab
  have hnne : n.data ≠ [] := by
    rw [hshape]
    cases hsc : p.scheme with
    | nil => exact absurd hsc hscheme
    | cons c t =>
      rw [List.cons_append]
      exact List.cons_ne_nil c _
  have hjoin : urljoinCore b.data n.data = Except.ok n.data := by
    unfold urljoinCore
    by_cases hb : b.data = []
    · rw [if_pos hb]
    · rw [if_neg hb, if_neg hnne]
      obtain ⟨bp, hbp⟩ : ∃ bp, urlparseCore b.data [] = Except.ok bp := by
        unfold urljoinCore at hj
        rw [if_neg hb] at hj
        by_cases hu : u.data = []
        · rw [if_pos hu] at hj
          injection hj with h4
          exact ⟨p, by rw [h4]; exact hp⟩
        · rw [if_neg hu] at hj
          rcases hpb : urlparseCore b.data [] with e | bp
          · rw [hpb] at hj
            exact Except.noConfusion hj
          · exact ⟨bp, rfl⟩
      simp only [hbp, hreparse bp.scheme]
      by_cases hcase : p.scheme ≠ bp.scheme ∨ p.scheme ∉ uses_relative
      · rw [if_pos hcase]
      · rw [if_neg hcase]
        push_neg at hcase
        rw [if_pos ⟨uses_relative_sub_netloc p.scheme hcase.2, hlnlne⟩]
        rw [urlunparse_rebuild p.scheme (pyLower p.netloc) p.path p.query hscheme
          hlnlne hpthfact, hshape]
  have hcore2 : normalize_urlCore n.data b.data = Except.ok (rebuildUrl p) := by
    unfold normalize_urlCore
    rw [hjoin]
    show (match urlparseCore n.data [] with
      | Except.error e => Except.error e
      | Except.ok p2 =>
        Except.ok (if p2.query ≠ [] then
            (pyLower p2.scheme ++ chars "://" ++ pyLower p2.netloc ++ p2.path) ++ '?' :: p2.query
          else pyLower p2.scheme ++ chars "://" ++ pyLower p2.netloc ++ p2.path)) =
      Except.ok (rebuildUrl p)
    rw [hreparse []]
    show Except.ok (if p.query ≠ [] then
        (pyLower p.scheme ++ chars "://" ++ pyLower (pyLower p.netloc) ++ p.path) ++ '?' :: p.query
      else pyLower p.scheme ++ chars "://" ++ pyLower (pyLower p.netloc) ++ p.path) =
      Except.ok (rebuildUrl p)
    rw [pyLower_idem p.netloc, normalize_out_eq p]
  show normalize_url n b = Except.ok n
  unfold normalize_url
  rw [hcore2, hn2]
  rfl

/-- Witness for C8 (amended): a concrete run where the resolved URL has a
nonempty scheme and netloc, and normalization of the normalized output
returns it unchanged. -/
theorem normalize_url_idempotent_witness :
    normalize_url "http://example.com/A/b?Q=1" "" =
      Except.ok "http://example.com/A/b?Q=1" :=
  normalize_url_idempotent "HTTP://EXample.com/A/b?Q=1" "" "http://example.com/A/b?Q=1"
    (chars "HTTP://EXample.com/A/b?Q=1")
    ⟨chars "http", chars "EXample.com", chars "/A/b", [], chars "Q=1", []⟩
    (by rfl) (by rfl) (by decide) (by decide) (by rfl)

/-- C8 counterexample: normalization is not idempotent in general — the
empty URL against the empty base normalizes to `://`, but normalizing
`://` gives the different string `://://`. -/
theorem normalize_url_not_idempotent_counterexample :
    normalize_url "" "" = Except.ok "://" ∧
      normalize_url "://" "" = Except.ok "://://" := by
  constructor
  · rfl
  · rfl

end LetsCrawl
